import Mathlib

/-!
Verification of the `container` repository: the slice-backed ring-buffer deque
(packages `deque` and `vecdeque`) and the slice-backed binary min-heap
(package `heap`).

The Go state is embedded shallowly. A Go slice `q.buf` with its capacity is
modelled by a `List α` of length `cap(q.buf)` together with the logical length
`len`; Go's `append`-chosen capacities are modelled by a growth oracle
`g : Nat → Nat → Nat` constrained by `GrowOK`, and the zero value appended for
the fresh slots is an explicit argument `d`. A Go `copy` into a slice window is
`copyTo`. Fallible operations return `Option`: `none` models `ok = false` for
the pops and a runtime panic for the indexed accessors.
-/

set_option linter.unusedVariables false

/-- Model of Go `copy(buf[start:start+vals.length], vals)`: write the elements
of `vals` into `buf` at consecutive positions starting at `start`. Out-of-range
writes are dropped by `List.set`; all call sites stay in range. -/
def copyTo {α : Type} (buf : List α) (start : Nat) : List α → List α
  | [] => buf
  | v :: vs => copyTo (buf.set start v) (start + 1) vs

/-- State of the ring-buffer deque, shared by `deque.Deque` and `vecdeque.DQ`
(their struct declarations are identical): `head` is the physical index of the
logical first element, `buf` models the whole backing array
(Go `q.buf[:cap(q.buf)]`, so `buf.length` is the capacity), and `len` is the
number of live elements (Go `len(q.buf)`). -/
structure Deque (α : Type) where
  head : Nat
  buf : List α
  len : Nat
deriving Repr, DecidableEq

/-- Growth oracle constraint: Go's `append(buf[:c], make([]T, k)...)` yields a
capacity of at least `c + k`; the exact value is runtime-chosen. -/
def GrowOK (g : Nat → Nat → Nat) : Prop := ∀ c k, 0 < k → c + k ≤ g c k

/-- Minimal growth oracle: `append` reserving exactly what was requested. -/
def minGrow : Nat → Nat → Nat := fun c k => c + k

namespace Deque

variable {α : Type}

/-- Go `Deque.Cap`: `cap(q.buf)`. -/
def cap (q : Deque α) : Nat := q.buf.length

/-- Go `Deque.Len`: `len(q.buf)`. -/
def Len (q : Deque α) : Nat := q.len

/-- Go `wrapAdd(i, addend)`: `i + addend`, wrapped once past the capacity. -/
def wrapAdd (q : Deque α) (i addend : Nat) : Nat :=
  if q.cap ≤ i + addend then i + addend - q.cap else i + addend

/-- Go `toPhysicalIdx(i)`. -/
def toPhysicalIdx (q : Deque α) (i : Nat) : Nat := q.wrapAdd q.head i

/-- Go `deque.From`: adopt a slice as the backing buffer. -/
def From (l : List α) : Deque α := ⟨0, l, l.length⟩

/-- Go final `Deque.At`: bounds-checked indexed access. `none` models the
panic raised when `i < 0 || i >= len(q.buf)` (and the unreachable slice panic
of the inner read). -/
def At (q : Deque α) (i : Int) : Option α :=
  if 0 ≤ i ∧ i < (q.len : Int) then q.buf[q.toPhysicalIdx i.toNat]? else none

/-- Go `Deque.PopFront`: `none` models `ok = false` on the empty deque. -/
def PopFront (q : Deque α) : Option α × Deque α :=
  if q.len = 0 then (none, q)
  else (q.buf[q.head]?, { q with head := q.toPhysicalIdx 1, len := q.len - 1 })

/-- Go `Deque.PopBack`: the returned element is read at the physical index of
the already-decremented length. -/
def PopBack (q : Deque α) : Option α × Deque α :=
  if q.len = 0 then (none, q)
  else (q.buf[q.toPhysicalIdx (q.len - 1)]?, { q with len := q.len - 1 })

/-- Go `Deque.Reset`. -/
def Reset (q : Deque α) : Deque α := { q with len := 0 }

/-- Go final `Deque.Grow(n)` (via `slices.Grow`): no-op when `n ≤ cap - len`,
otherwise reallocate to capacity `g oldCap (n - (oldCap - len))` and relocate
by the three cases A (no wrap), B (copy tail segment up), C (move head segment
to the end of the new buffer). -/
def Grow (g : Nat → Nat → Nat) (d : α) (q : Deque α) (n : Nat) : Deque α :=
  if n ≤ q.cap - q.len then q
  else
    let oldCap := q.cap
    let newCap := g oldCap (n - (oldCap - q.len))
    let buf1 := q.buf ++ List.replicate (newCap - oldCap) d
    if q.head ≤ oldCap - q.len then
      { q with buf := buf1 }
    else
      let headLen := oldCap - q.head
      let tailLen := q.len - headLen
      if headLen > tailLen ∧ tailLen ≤ newCap - oldCap then
        { q with buf := copyTo buf1 oldCap (q.buf.take tailLen) }
      else
        { head := newCap - headLen,
          buf := copyTo buf1 (newCap - headLen) ((q.buf.drop q.head).take headLen),
          len := q.len }

/-- Go `Deque.PushFront(values...)`. -/
def PushFront (g : Nat → Nat → Nat) (d : α) (q : Deque α) (values : List α) : Deque α :=
  let q := q.Grow g d values.length
  if values.length ≤ q.head then
    let newHead := q.head - values.length
    { head := newHead, buf := copyTo q.buf newHead values, len := q.len + values.length }
  else
    let tailLen := values.length - q.head
    { head := q.cap - tailLen,
      buf := copyTo (copyTo q.buf 0 (values.drop tailLen)) (q.cap - tailLen)
        (values.take tailLen),
      len := q.len + values.length }

/-- Go final `Deque.PushBack(values...)`; the first branch takes the non-strict
condition `len(values) <= cap(q.buf)-endIdx`. -/
def PushBack (g : Nat → Nat → Nat) (d : α) (q : Deque α) (values : List α) : Deque α :=
  let q := q.Grow g d values.length
  let endIdx := q.wrapAdd q.head q.len
  if values.length ≤ q.cap - endIdx then
    { q with buf := copyTo q.buf endIdx values, len := q.len + values.length }
  else
    let headLen := q.cap - endIdx
    { q with
      buf := copyTo (copyTo q.buf endIdx (values.take headLen)) 0 (values.drop headLen),
      len := q.len + values.length }

/-- Go final `Deque.PopAll`: it eagerly empties the deque (`q.buf = q.buf[:0]`)
and returns an iterator that reads the retained buffer through the unchanged
`head` and capacity. The first component is the sequence the iterator yields on
full consumption, the second the deque state after the call. -/
def PopAll (q : Deque α) : List α × Deque α :=
  ((List.range q.len).filterMap (fun i => q.buf[q.toPhysicalIdx i]?), { q with len := 0 })

/-- Representation invariant of the Go code: the logical length fits in the
capacity and the head points into the buffer (or is 0 for capacity 0). -/
def WF (q : Deque α) : Prop :=
  q.len ≤ q.cap ∧ (q.head < q.cap ∨ (q.head = 0 ∧ q.cap = 0))

instance (q : Deque α) : Decidable q.WF := by unfold WF cap; exact inferInstance

/-- Logical contents of the deque: the sequence `At 0, …, At (len-1)`. -/
def toList (q : Deque α) : List α := (q.buf.drop q.head ++ q.buf.take q.head).take q.len

/-- Physical read of logical index `i`. -/
def atIdx (q : Deque α) (i : Nat) : Option α := q.buf[q.toPhysicalIdx i]?

/-- Number of elements relocated by `Deque.Grow`, mirroring its branch
structure: 0 when it does not reallocate or in case A, the tail segment length
in case B, the head segment length in case C. -/
def growMoved (g : Nat → Nat → Nat) (q : Deque α) (n : Nat) : Nat :=
  if n ≤ q.cap - q.len then 0
  else
    let oldCap := q.cap
    let newCap := g oldCap (n - (oldCap - q.len))
    if q.head ≤ oldCap - q.len then 0
    else
      let headLen := oldCap - q.head
      let tailLen := q.len - headLen
      if headLen > tailLen ∧ tailLen ≤ newCap - oldCap then tailLen
      else headLen

end Deque

namespace DQ

variable {α : Type}

/-- Go `vecdeque.DQ.Get`: unchecked indexed access. The wrap arithmetic runs on
Go ints; `none` models the slice panic when the resulting physical index lies
outside `[0, cap)`, and a stale in-buffer value is returned without a panic
otherwise. -/
def Get (q : Deque α) (i : Int) : Option α :=
  let p := (q.head : Int) + i
  let p := if (q.cap : Int) ≤ p then p - (q.cap : Int) else p
  if 0 ≤ p then q.buf[p.toNat]? else none

/-- Go `vecdeque.DQ.Grow`: the entry computation `n -= cap - len; if n <= 0`
precedes the same reallocation and three-case relocation as `Deque.Grow`. -/
def Grow (g : Nat → Nat → Nat) (d : α) (q : Deque α) (n : Nat) : Deque α :=
  let n' := n - (q.cap - q.len)
  if n' = 0 then q
  else
    let oldCap := q.cap
    let newCap := g oldCap n'
    let buf1 := q.buf ++ List.replicate (newCap - oldCap) d
    if q.head ≤ oldCap - q.len then
      { q with buf := buf1 }
    else
      let headLen := oldCap - q.head
      let tailLen := q.len - headLen
      if headLen > tailLen ∧ tailLen ≤ newCap - oldCap then
        { q with buf := copyTo buf1 oldCap (q.buf.take tailLen) }
      else
        { head := newCap - headLen,
          buf := copyTo buf1 (newCap - headLen) ((q.buf.drop q.head).take headLen),
          len := q.len }

/-- Go `vecdeque.DQ.PushFront`; its body is textually identical to the final
`Deque.PushFront`, calling the vecdeque `Grow`. -/
def PushFront (g : Nat → Nat → Nat) (d : α) (q : Deque α) (values : List α) : Deque α :=
  let q := DQ.Grow g d q values.length
  if values.length ≤ q.head then
    let newHead := q.head - values.length
    { head := newHead, buf := copyTo q.buf newHead values, len := q.len + values.length }
  else
    let tailLen := values.length - q.head
    { head := q.cap - tailLen,
      buf := copyTo (copyTo q.buf 0 (values.drop tailLen)) (q.cap - tailLen)
        (values.take tailLen),
      len := q.len + values.length }

/-- Go `vecdeque.DQ.PushBack`: the first branch takes the strict condition
`len(values) < cap(q.buf)-endIdx`. -/
def PushBack (g : Nat → Nat → Nat) (d : α) (q : Deque α) (values : List α) : Deque α :=
  let q := DQ.Grow g d q values.length
  let endIdx := q.wrapAdd q.head q.len
  if values.length < q.cap - endIdx then
    { q with buf := copyTo q.buf endIdx values, len := q.len + values.length }
  else
    let headLen := q.cap - endIdx
    { q with
      buf := copyTo (copyTo q.buf endIdx (values.take headLen)) 0 (values.drop headLen),
      len := q.len + values.length }

/-- Go `vecdeque.DQ.PopFront`; textually identical to the final
`Deque.PopFront`. -/
def PopFront (q : Deque α) : Option α × Deque α :=
  if q.len = 0 then (none, q)
  else (q.buf[q.head]?, { q with head := q.toPhysicalIdx 1, len := q.len - 1 })

/-- Go `vecdeque.DQ.PopBack`; textually identical to the final
`Deque.PopBack`. -/
def PopBack (q : Deque α) : Option α × Deque α :=
  if q.len = 0 then (none, q)
  else (q.buf[q.toPhysicalIdx (q.len - 1)]?, { q with len := q.len - 1 })

/-- Go `vecdeque.DQ.PopAll` pops lazily, one `PopFront` per consumed element:
`PopAllTake q k` is the pair of the values yielded when the consumer takes `k`
steps (or the deque runs out) and then abandons iteration, and the deque state
left behind. -/
def PopAllTake : Deque α → Nat → List α × Deque α
  | q, 0 => ([], q)
  | q, k + 1 =>
    match DQ.PopFront q with
    | (none, q1) => ([], q1)
    | (some v, q1) =>
      let r := PopAllTake q1 k
      (v :: r.1, r.2)

end DQ

/-- State of the slice-backed binary min-heap (Go `heap.Heap`): the element
buffer and the comparison function supplied at construction. -/
structure Heap (α : Type) where
  buf : List α
  compare : α → α → Int

namespace Heap

variable {α : Type}

/-- Go `heap.New`. -/
def New (compare : α → α → Int) : Heap α := ⟨[], compare⟩

/-- Go `Heap.Len`. -/
def Len (h : Heap α) : Nat := h.buf.length

/-- Go `Heap.Grow`: a pure capacity reservation; the logical state is
unchanged. -/
def Grow (h : Heap α) (n : Nat) : Heap α := h

/-- Loop of Go `Heap.up`: sift the saved value `x` from position `j` toward the
root. The `none` branch models the (unreachable, for in-range `j`) parent read
panic; `(j-1)/2 = j` is Go's `i == j` root test, since Go's `(0-1)/2` is `0`. -/
def upAux (cmp : α → α → Int) (buf : List α) (j : Nat) (x : α) : List α :=
  if (j - 1) / 2 = j then buf.set j x
  else
    match buf[(j - 1) / 2]? with
    | none => buf.set j x
    | some bi =>
      if 0 ≤ cmp x bi then buf.set j x
      else upAux cmp (buf.set j bi) ((j - 1) / 2) x
termination_by j
decreasing_by
  omega

/-- Go `Heap.up`: reads `x := h.buf[j]` and runs the sift-up loop; for an
out-of-range `j` (never passed by the source) the model is the identity. -/
def up (h : Heap α) (j : Nat) : Heap α :=
  match h.buf[j]? with
  | none => h
  | some x => ⟨upAux h.compare h.buf j x, h.compare⟩

/-- Go `Heap.Push`. -/
def Push (h : Heap α) (x : α) : Heap α :=
  Heap.up ⟨h.buf ++ [x], h.compare⟩ h.buf.length

/-- Loop of Go `Heap.down`: sift `x` down from position `i`. The child reads
via `getElem?` model the `j1 >= len` and `j2 < len` bounds tests (the `j1 < 0`
overflow test of the source cannot fire on `Nat`). -/
def downAux (cmp : α → α → Int) (buf : List α) (i : Nat) (x : α) : List α :=
  match h1 : buf[2 * i + 1]? with
  | none => buf.set i x
  | some b1 =>
    match h2 : buf[2 * i + 2]? with
    | some b2 =>
      if cmp b2 b1 < 0 then
        if cmp x b2 ≤ 0 then buf.set i x
        else downAux cmp (buf.set i b2) (2 * i + 2) x
      else
        if cmp x b1 ≤ 0 then buf.set i x
        else downAux cmp (buf.set i b1) (2 * i + 1) x
    | none =>
      if cmp x b1 ≤ 0 then buf.set i x
      else downAux cmp (buf.set i b1) (2 * i + 1) x
termination_by buf.length - i
decreasing_by
  · simp only [List.length_set]
    rcases List.getElem?_eq_some.mp h2 with ⟨hlt, -⟩
    omega
  · simp only [List.length_set]
    rcases List.getElem?_eq_some.mp h1 with ⟨hlt, -⟩
    omega
  · simp only [List.length_set]
    rcases List.getElem?_eq_some.mp h1 with ⟨hlt, -⟩
    omega

/-- Go `Heap.down` acting on the stored buffer. -/
def down (h : Heap α) (i : Nat) (x : α) : Heap α :=
  ⟨downAux h.compare h.buf i x, h.compare⟩

/-- Go `Heap.Pop`: `none` models `ok = false` on the empty heap. -/
def Pop (h : Heap α) : Option α × Heap α :=
  match hb : h.buf with
  | [] => (none, h)
  | x :: rest =>
    let last := (x :: rest).getLast (List.cons_ne_nil x rest)
    let buf1 := (x :: rest).dropLast
    if 0 < buf1.length then (some x, Heap.down ⟨buf1, h.compare⟩ 0 last)
    else (some x, ⟨buf1, h.compare⟩)

/-- Values returned by `k` successive `Pop` calls, with the final state. -/
def popSeq : Heap α → Nat → List α × Heap α
  | h, 0 => ([], h)
  | h, k + 1 =>
    match Heap.Pop h with
    | (none, h1) => ([], h1)
    | (some v, h1) =>
      let r := popSeq h1 k
      (v :: r.1, r.2)

/-- Fold of `Push` over a list of values. -/
def pushAll (h : Heap α) (xs : List α) : Heap α := xs.foldl Heap.Push h

/-- Min-heap invariant of the spec: every non-root entry compares `≥ 0`
against its parent `(k-1)/2`. -/
def IsHeapBuf (cmp : α → α → Int) (buf : List α) : Prop :=
  ∀ k a b, 0 < k → buf[k]? = some a → buf[(k - 1) / 2]? = some b → 0 ≤ cmp a b

/-- Modelling of a comparator that realises a total order (as `cmp.Compare`
does): its sign is antisymmetric and `≤ 0` is transitive. -/
def IsTotalCmp (cmp : α → α → Int) : Prop :=
  (∀ a b, cmp a b ≤ 0 ↔ 0 ≤ cmp b a) ∧
  (∀ a b c, cmp a b ≤ 0 → cmp b c ≤ 0 → cmp a c ≤ 0)

/-- Heap states reachable from the empty heap by `Push` and `Pop`. -/
inductive Reachable (cmp : α → α → Int) : Heap α → Prop
  | empty : Reachable cmp (Heap.New cmp)
  | push (h : Heap α) (x : α) : Reachable cmp h → Reachable cmp (h.Push x)
  | pop (h : Heap α) : Reachable cmp h → Reachable cmp (h.Pop).2

end Heap

/-- The `cmp.Compare[int]` comparator used throughout the package examples,
modelled by the sign of the difference. -/
def natCmp (a b : Nat) : Int := (a : Int) - (b : Int)

/-! ### Basic lemmas about `copyTo` -/

theorem copyTo_length {α : Type} (vs : List α) (buf : List α) (start : Nat) :
    (copyTo buf start vs).length = buf.length := by
  induction vs generalizing buf start with
  | nil => rfl
  | cons v vs ih => rw [copyTo, ih, List.length_set]

theorem copyTo_getElem?_lt {α : Type} (vs : List α) (buf : List α) (start p : Nat)
    (hp : p < start) : (copyTo buf start vs)[p]? = buf[p]? := by
  induction vs generalizing buf start with
  | nil => rfl
  | cons v vs ih =>
    rw [copyTo, ih _ _ (by omega), List.getElem?_set_ne (by omega)]

theorem copyTo_getElem?_ge {α : Type} (vs : List α) (buf : List α) (start p : Nat)
    (hp : start + vs.length ≤ p) : (copyTo buf start vs)[p]? = buf[p]? := by
  induction vs generalizing buf start with
  | nil => rfl
  | cons v vs ih =>
    rw [copyTo, ih _ _ (by simp at hp ⊢; omega), List.getElem?_set_ne (by simp at hp; omega)]

theorem copyTo_getElem?_in {α : Type} (vs : List α) (buf : List α) (start p : Nat)
    (h1 : start ≤ p) (h2 : p < start + vs.length) (h3 : p < buf.length) :
    (copyTo buf start vs)[p]? = vs[p - start]? := by
  induction vs generalizing buf start with
  | nil => simp at h2; omega
  | cons v vs ih =>
    by_cases hps : p = start
    · subst hps
      rw [copyTo, copyTo_getElem?_lt _ _ _ _ (by omega),
        List.getElem?_set_eq_of_lt _ h3]
      simp
    · rw [copyTo, ih (buf.set start v) (start + 1) (by omega) (by simp at h2 ⊢; omega)
        (by rw [List.length_set]; exact h3)]
      have hidx : p - start = (p - (start + 1)) + 1 := by omega
      rw [hidx, List.getElem?_cons_succ]

/-! ### Ring-buffer abstraction lemmas for the deque -/

namespace Deque

variable {α : Type}

theorem toPhysicalIdx_lt (q : Deque α) (hwf : q.WF) (i : Nat) (hi : i < q.len) :
    q.toPhysicalIdx i < q.cap := by
  rcases hwf with ⟨h1, h2⟩
  unfold toPhysicalIdx wrapAdd
  split <;> omega

theorem toList_length (q : Deque α) (hwf : q.WF) : q.toList.length = q.len := by
  rcases hwf with ⟨h1, h2⟩
  unfold toList cap at *
  rw [List.length_take, List.length_append, List.length_drop, List.length_take]
  omega

theorem toList_getElem? (q : Deque α) (hwf : q.WF) (i : Nat) (hi : i < q.len) :
    q.toList[i]? = q.atIdx i := by
  have hlc : q.len ≤ q.cap := hwf.1
  have hh : q.head < q.cap ∨ (q.head = 0 ∧ q.cap = 0) := hwf.2
  have hcap : q.cap = q.buf.length := rfl
  unfold toList atIdx toPhysicalIdx wrapAdd
  rw [List.getElem?_take_of_lt hi]
  by_cases hcase : i < q.buf.length - q.head
  · rw [List.getElem?_append_left (by rw [List.length_drop]; omega), List.getElem?_drop]
    congr 1
    split <;> omega
  · rw [List.getElem?_append_right (by rw [List.length_drop]; omega), List.length_drop,
      List.getElem?_take_of_lt (by omega)]
    congr 1
    split <;> omega

theorem atIdx_isSome (q : Deque α) (hwf : q.WF) (i : Nat) (hi : i < q.len) :
    ∃ a, q.atIdx i = some a :=
  ⟨_, List.getElem?_eq_getElem (toPhysicalIdx_lt q hwf i hi)⟩

theorem toList_eq_of_atIdx {q1 q2 : Deque α} (h1 : q1.WF) (h2 : q2.WF)
    (hlen : q1.len = q2.len) (h : ∀ i, i < q1.len → q1.atIdx i = q2.atIdx i) :
    q1.toList = q2.toList := by
  apply List.ext_getElem?
  intro n
  by_cases hn : n < q1.len
  · rw [toList_getElem? q1 h1 n hn, toList_getElem? q2 h2 n (hlen ▸ hn), h n hn]
  · rw [List.getElem?_eq_none_iff.mpr (by rw [toList_length q1 h1]; omega),
      List.getElem?_eq_none_iff.mpr (by rw [toList_length q2 h2]; omega)]

end Deque

theorem filterMap_range_eq {α : Type} (f : Nat → Option α) :
    ∀ (n : Nat) (L : List α), L.length = n → (∀ i, i < n → f i = L[i]?) →
    (List.range n).filterMap f = L := by
  intro n
  induction n with
  | zero =>
    intro L hL _
    rw [List.length_eq_zero.mp hL]
    rfl
  | succ n ih =>
    intro L hL h
    rw [List.range_succ, List.filterMap_append,
      ih (L.take n) (by rw [List.length_take]; omega)
        (fun i hi => by rw [h i (by omega), List.getElem?_take_of_lt hi])]
    have hfn : f n = L[n]? := h n (by omega)
    have hsing : List.filterMap f [n] = (f n).toList := by
      cases hx : f n <;> simp [List.filterMap_cons, hx]
    rw [hsing, hfn, ← List.take_succ, List.take_of_length_le (by omega)]

namespace Deque

variable {α : Type}

theorem grow_spec (g : Nat → Nat → Nat) (hg : GrowOK g) (d : α) (q : Deque α) (hwf : q.WF)
    (n : Nat) :
    (q.Grow g d n).WF ∧ (q.Grow g d n).len = q.len ∧
    n ≤ (q.Grow g d n).cap - (q.Grow g d n).len ∧ (q.Grow g d n).toList = q.toList := by
  obtain ⟨hlc, hh⟩ := id hwf
  simp only [cap] at hlc hh
  by_cases h0 : n ≤ q.cap - q.len
  · unfold Grow
    rw [if_pos h0]
    exact ⟨hwf, rfl, h0, rfl⟩
  · have h0' : ¬ n ≤ q.buf.length - q.len := h0
    have hn' : 0 < n - (q.buf.length - q.len) := by omega
    have hgrow := hg q.buf.length (n - (q.buf.length - q.len)) hn'
    simp only [Grow, cap, if_neg h0']
    set C' := g q.buf.length (n - (q.buf.length - q.len)) with hC'
    set B1 := q.buf ++ List.replicate (C' - q.buf.length) d with hB1
    have hB1len : B1.length = C' := by
      rw [hB1, List.length_append, List.length_replicate]; omega
    have hB1get : ∀ p, p < q.buf.length → B1[p]? = q.buf[p]? := fun p hp =>
      List.getElem?_append_left hp
    split_ifs with hA hB
    · -- case A: no wrap
      have hwfA : WF { q with buf := B1 } := by
        constructor
        · simp only [cap, hB1len]; omega
        · simp only [cap, hB1len]; omega
      refine ⟨hwfA, rfl, by simp only [cap, hB1len]; omega, ?_⟩
      refine toList_eq_of_atIdx hwfA hwf rfl ?_
      intro i hi
      replace hi : i < q.len := hi
      simp only [atIdx, toPhysicalIdx, wrapAdd, cap, hB1len]
      have hlt : q.head + i < q.buf.length := by omega
      rw [if_neg (by omega), if_neg (by omega), hB1get _ hlt]
    · -- case B: wrapped, copy the tail segment just past the old capacity
      have hhead : q.head < q.buf.length := by omega
      obtain ⟨hBlt, hBroom⟩ := hB
      set tailLen := q.len - (q.buf.length - q.head) with htl
      have htl1 : 1 ≤ tailLen := by omega
      have hclen : (copyTo B1 q.buf.length (q.buf.take tailLen)).length = C' := by
        rw [copyTo_length, hB1len]
      have htake : (q.buf.take tailLen).length = tailLen := by
        rw [List.length_take]; omega
      have hwfB : WF { q with buf := copyTo B1 q.buf.length (q.buf.take tailLen) } := by
        constructor
        · simp only [cap, hclen]; omega
        · simp only [cap, hclen]; omega
      refine ⟨hwfB, rfl, by simp only [cap, hclen]; omega, ?_⟩
      refine toList_eq_of_atIdx hwfB hwf rfl ?_
      intro i hi
      replace hi : i < q.len := hi
      simp only [atIdx, toPhysicalIdx, wrapAdd, cap, hclen]
      rw [if_neg (by omega)]
      by_cases hcase : q.head + i < q.buf.length
      · rw [copyTo_getElem?_lt _ _ _ _ (by omega), hB1get _ hcase, if_neg (by omega)]
      · rw [copyTo_getElem?_in _ _ _ _ (by omega) (by rw [htake]; omega) (by rw [hB1len]; omega),
          if_pos (by omega), List.getElem?_take_of_lt (by omega)]
    · -- case C: wrapped, move the head segment to the end of the new buffer
      have hhead : q.head < q.buf.length := by omega
      set headLen := q.buf.length - q.head with hhl
      set S := (q.buf.drop q.head).take headLen with hS
      have hSlen : S.length = headLen := by
        rw [hS, List.length_take, List.length_drop]; omega
      have hSget : ∀ t, t < headLen → S[t]? = q.buf[q.head + t]? := by
        intro t ht
        rw [hS, List.getElem?_take_of_lt ht, List.getElem?_drop]
      have hclen : (copyTo B1 (C' - headLen) S).length = C' := by
        rw [copyTo_length, hB1len]
      have hwfC : WF { head := C' - headLen, buf := copyTo B1 (C' - headLen) S, len := q.len } := by
        constructor
        · simp only [cap, hclen]; omega
        · simp only [cap, hclen]; omega
      refine ⟨hwfC, rfl, by simp only [cap, hclen]; omega, ?_⟩
      refine toList_eq_of_atIdx hwfC hwf rfl ?_
      intro i hi
      replace hi : i < q.len := hi
      simp only [atIdx, toPhysicalIdx, wrapAdd, cap, hclen]
      by_cases hcase : i < headLen
      · rw [if_neg (by omega),
          copyTo_getElem?_in _ _ _ _ (by omega) (by rw [hSlen]; omega) (by rw [hB1len]; omega),
          hSget _ (by omega), if_neg (by omega)]
        congr 1
        omega
      · have htlh : q.len - headLen ≤ q.head := by omega
        rw [if_pos (by omega), if_pos (by omega)]
        have hp : C' - headLen + i - C' = q.head + i - q.buf.length := by omega
        rw [hp, copyTo_getElem?_lt _ _ _ _ (by omega), hB1get _ (by omega)]

end Deque

namespace Deque

variable {α : Type}

theorem popFront_eq (q : Deque α) (hwf : q.WF) :
    (q.PopFront).1 = q.toList.head? ∧ (q.PopFront).2.WF ∧
    (q.PopFront).2.len = q.len - 1 ∧ (q.PopFront).2.cap = q.cap ∧
    (q.PopFront).2.toList = q.toList.tail := by
  obtain ⟨hlc, hh⟩ := id hwf
  simp only [cap] at hlc hh
  by_cases h0 : q.len = 0
  · have htl : q.toList = [] := List.length_eq_zero.mp (by rw [toList_length q hwf, h0])
    unfold PopFront
    rw [if_pos h0]
    refine ⟨by rw [htl]; rfl, hwf, ?_, rfl, by rw [htl]; rfl⟩
    show q.len = q.len - 1
    omega
  · have hhead : q.head < q.buf.length := by omega
    unfold PopFront
    rw [if_neg h0]
    have hwf1 : WF { q with head := q.toPhysicalIdx 1, len := q.len - 1 } := by
      constructor
      · simp only [cap]; omega
      · simp only [cap, toPhysicalIdx, wrapAdd]
        split <;> omega
    refine ⟨?_, hwf1, rfl, rfl, ?_⟩
    · rw [List.head?_eq_getElem?, toList_getElem? q hwf 0 (by omega)]
      simp only [atIdx, toPhysicalIdx, wrapAdd, cap, Nat.add_zero]
      rw [if_neg (by omega)]
    · apply List.ext_getElem?
      intro m
      by_cases hm : m < q.len - 1
      · rw [toList_getElem? _ hwf1 m (by simpa using hm), ← List.drop_one,
          List.getElem?_drop, toList_getElem? q hwf (1 + m) (by omega)]
        simp only [atIdx, toPhysicalIdx, wrapAdd, cap]
        split_ifs <;> (congr 1; omega)
      · rw [List.getElem?_eq_none_iff.mpr
            (by rw [toList_length _ hwf1]; simp only []; omega),
          List.getElem?_eq_none_iff.mpr
            (by rw [List.length_tail, toList_length q hwf]; omega)]

theorem popBack_eq (q : Deque α) (hwf : q.WF) :
    (q.PopBack).1 = q.toList[q.len - 1]? ∧ (q.PopBack).2.WF ∧
    (q.PopBack).2.len = q.len - 1 ∧ (q.PopBack).2.cap = q.cap ∧
    (q.PopBack).2.toList = q.toList.take (q.len - 1) := by
  obtain ⟨hlc, hh⟩ := id hwf
  simp only [cap] at hlc hh
  by_cases h0 : q.len = 0
  · have htl : q.toList = [] := List.length_eq_zero.mp (by rw [toList_length q hwf, h0])
    unfold PopBack
    rw [if_pos h0]
    refine ⟨by rw [htl]; rfl, hwf, ?_, rfl, ?_⟩
    · show q.len = q.len - 1
      omega
    · show q.toList = q.toList.take (q.len - 1)
      rw [htl, List.take_nil]
  · unfold PopBack
    rw [if_neg h0]
    have hwf1 : WF { q with len := q.len - 1 } := by
      constructor
      · simp only [cap]; omega
      · simp only [cap]; omega
    refine ⟨?_, hwf1, rfl, rfl, ?_⟩
    · rw [toList_getElem? q hwf (q.len - 1) (by omega)]
      rfl
    · apply List.ext_getElem?
      intro m
      by_cases hm : m < q.len - 1
      · rw [toList_getElem? _ hwf1 m (by simpa using hm), List.getElem?_take_of_lt hm,
          toList_getElem? q hwf m (by omega)]
        rfl
      · rw [List.getElem?_eq_none_iff.mpr
            (by rw [toList_length _ hwf1]; simp only []; omega),
          List.getElem?_eq_none_iff.mpr
            (by rw [List.length_take, toList_length q hwf]; omega)]

end Deque

namespace Deque

variable {α : Type}

theorem pushFront_eq (g : Nat → Nat → Nat) (hg : GrowOK g) (d : α) (q : Deque α) (hwf : q.WF)
    (vs : List α) :
    (PushFront g d q vs).WF ∧ (PushFront g d q vs).len = q.len + vs.length ∧
    (PushFront g d q vs).toList = vs ++ q.toList := by
  obtain ⟨hwf1, hlen1, hfree1, htl1⟩ := grow_spec g hg d q hwf vs.length
  simp only [cap] at hfree1
  simp only [PushFront, cap]
  set q1 := q.Grow g d vs.length with hq1
  obtain ⟨hlc1, hh1⟩ := id hwf1
  simp only [cap] at hlc1 hh1
  rw [← htl1, ← hlen1]
  have htL : q.toList.length = q1.len := by rw [← htl1, toList_length q1 hwf1]
  by_cases hbr : vs.length ≤ q1.head
  · rw [if_pos hbr]
    have hwfr : WF
        { head := q1.head - vs.length,
          buf := copyTo q1.buf (q1.head - vs.length) vs,
          len := q1.len + vs.length } := by
      constructor
      · simp only [cap, copyTo_length]; omega
      · simp only [cap, copyTo_length]; omega
    refine ⟨hwfr, rfl, ?_⟩
    apply List.ext_getElem?
    intro j
    by_cases hj : j < q1.len + vs.length
    · rw [toList_getElem? _ hwfr j (by simpa using hj)]
      simp only [atIdx, toPhysicalIdx, wrapAdd, cap, copyTo_length]
      by_cases hjm : j < vs.length
      · rw [List.getElem?_append_left hjm, if_neg (by omega),
          copyTo_getElem?_in _ _ _ _ (by omega) (by omega) (by omega)]
        congr 1
        omega
      · rw [List.getElem?_append_right (by omega),
          toList_getElem? q1 hwf1 (j - vs.length) (by omega)]
        simp only [atIdx, toPhysicalIdx, wrapAdd, cap]
        rcases Nat.lt_or_ge (q1.head + (j - vs.length)) q1.buf.length with hw | hw
        · rw [if_neg (by omega), if_neg (by omega),
            copyTo_getElem?_ge _ _ _ _ (by omega)]
          congr 1
          omega
        · rw [if_pos (by omega), if_pos (by omega),
            copyTo_getElem?_lt _ _ _ _ (by omega)]
          congr 1
          omega
    · rw [List.getElem?_eq_none_iff.mpr (by rw [toList_length _ hwfr]; simp only []; omega),
        List.getElem?_eq_none_iff.mpr
          (by rw [List.length_append, toList_length q1 hwf1]; omega)]
  · rw [if_neg hbr]
    have hL0 : q1.head < q1.buf.length ∧ 0 < q1.buf.length := by
      rcases hh1 with h | h
      · exact ⟨h, by omega⟩
      · exfalso; omega
    obtain ⟨hhd, hLpos⟩ := hL0
    have hmL : vs.length ≤ q1.buf.length := by omega
    have hdropLen : (vs.drop (vs.length - q1.head)).length = q1.head := by
      rw [List.length_drop]; omega
    have htakeLen : (vs.take (vs.length - q1.head)).length = vs.length - q1.head := by
      rw [List.length_take]; omega
    have hwfr : WF
        { head := q1.buf.length - (vs.length - q1.head),
          buf := copyTo (copyTo q1.buf 0 (vs.drop (vs.length - q1.head)))
            (q1.buf.length - (vs.length - q1.head)) (vs.take (vs.length - q1.head)),
          len := q1.len + vs.length } := by
      constructor
      · simp only [cap, copyTo_length]; omega
      · simp only [cap, copyTo_length]; omega
    refine ⟨hwfr, rfl, ?_⟩
    apply List.ext_getElem?
    intro j
    by_cases hj : j < q1.len + vs.length
    · rw [toList_getElem? _ hwfr j (by simpa using hj)]
      simp only [atIdx, toPhysicalIdx, wrapAdd, cap, copyTo_length]
      by_cases hjt : j < vs.length - q1.head
      · rw [List.getElem?_append_left (by omega), if_neg (by omega),
          copyTo_getElem?_in _ _ _ _ (by omega) (by rw [htakeLen]; omega)
            (by rw [copyTo_length]; omega)]
        have hidx : q1.buf.length - (vs.length - q1.head) + j -
            (q1.buf.length - (vs.length - q1.head)) = j := by omega
        rw [hidx, List.getElem?_take_of_lt hjt]
      · by_cases hjm : j < vs.length
        · rw [List.getElem?_append_left hjm, if_pos (by omega),
            copyTo_getElem?_lt _ _ _ _ (by omega),
            copyTo_getElem?_in _ _ _ _ (by omega) (by rw [hdropLen]; omega) (by omega)]
          rw [List.getElem?_drop]
          congr 1
          omega
        · rw [List.getElem?_append_right (by omega),
            toList_getElem? q1 hwf1 (j - vs.length) (by omega)]
          simp only [atIdx, toPhysicalIdx, wrapAdd, cap]
          rw [if_pos (by omega), if_neg (by omega),
            copyTo_getElem?_lt _ _ _ _ (by omega),
            copyTo_getElem?_ge _ _ _ _ (by rw [hdropLen]; omega)]
          congr 1
          omega
    · rw [List.getElem?_eq_none_iff.mpr (by rw [toList_length _ hwfr]; simp only []; omega),
        List.getElem?_eq_none_iff.mpr
          (by rw [List.length_append, toList_length q1 hwf1]; omega)]

end Deque

namespace Deque

variable {α : Type}

theorem pushBack_eq (g : Nat → Nat → Nat) (hg : GrowOK g) (d : α) (q : Deque α) (hwf : q.WF)
    (vs : List α) :
    (PushBack g d q vs).WF ∧ (PushBack g d q vs).len = q.len + vs.length ∧
    (PushBack g d q vs).toList = q.toList ++ vs := by
  obtain ⟨hwf1, hlen1, hfree1, htl1⟩ := grow_spec g hg d q hwf vs.length
  simp only [cap] at hfree1
  simp only [PushBack, wrapAdd, toPhysicalIdx, cap]
  set q1 := q.Grow g d vs.length with hq1
  obtain ⟨hlc1, hh1⟩ := id hwf1
  simp only [cap] at hlc1 hh1
  rw [← htl1, ← hlen1]
  set E := if q1.buf.length ≤ q1.head + q1.len then q1.head + q1.len - q1.buf.length
    else q1.head + q1.len with hE
  have hEL : E ≤ q1.buf.length := by rw [hE]; split <;> omega
  by_cases hbr : vs.length ≤ q1.buf.length - E
  · rw [if_pos hbr]
    have hwfr : WF { head := q1.head, buf := copyTo q1.buf E vs, len := q1.len + vs.length } := by
      constructor
      · simp only [cap, copyTo_length]; omega
      · simp only [cap, copyTo_length]; omega
    refine ⟨hwfr, rfl, ?_⟩
    apply List.ext_getElem?
    intro j
    by_cases hj : j < q1.len + vs.length
    · rw [toList_getElem? _ hwfr j (by simpa using hj)]
      simp only [atIdx, toPhysicalIdx, wrapAdd, cap, copyTo_length]
      by_cases hjl : j < q1.len
      · rw [List.getElem?_append_left (by rw [toList_length q1 hwf1]; omega),
          toList_getElem? q1 hwf1 j (by omega)]
        simp only [atIdx, toPhysicalIdx, wrapAdd, cap]
        rcases Nat.lt_or_ge (q1.head + q1.len) q1.buf.length with hnw | hw
        · have hEv : E = q1.head + q1.len := by rw [hE, if_neg (by omega)]
          rw [if_neg (by omega), copyTo_getElem?_lt _ _ _ _ (by omega)]
        · have hEv : E = q1.head + q1.len - q1.buf.length := by rw [hE, if_pos (by omega)]
          rcases Nat.lt_or_ge (q1.head + j) q1.buf.length with hc | hc
          · rw [if_neg (by omega), copyTo_getElem?_ge _ _ _ _ (by omega)]
          · rw [if_pos (by omega), copyTo_getElem?_lt _ _ _ _ (by omega)]
      · rw [List.getElem?_append_right (by rw [toList_length q1 hwf1]; omega),
          toList_length q1 hwf1]
        rcases Nat.lt_or_ge (q1.head + q1.len) q1.buf.length with hnw | hw
        · have hEv : E = q1.head + q1.len := by rw [hE, if_neg (by omega)]
          rw [if_neg (by omega),
            copyTo_getElem?_in _ _ _ _ (by omega) (by omega) (by omega)]
          congr 1
          omega
        · have hEv : E = q1.head + q1.len - q1.buf.length := by rw [hE, if_pos (by omega)]
          rw [if_pos (by omega),
            copyTo_getElem?_in _ _ _ _ (by omega) (by omega) (by omega)]
          congr 1
          omega
    · rw [List.getElem?_eq_none_iff.mpr (by rw [toList_length _ hwfr]; simp only []; omega),
        List.getElem?_eq_none_iff.mpr
          (by rw [List.length_append, toList_length q1 hwf1]; omega)]
  · rw [if_neg hbr]
    have hLpos : 0 < q1.buf.length := by
      rcases Nat.eq_zero_or_pos q1.buf.length with h0 | h0
      · exfalso
        rcases hh1 with h | h
        · omega
        · have hE0 : E = 0 := by rw [hE, if_pos (by omega)]; omega
          omega
      · exact h0
    have hhd : q1.head < q1.buf.length := by omega
    have hnw : q1.head + q1.len < q1.buf.length := by
      rcases Nat.lt_or_ge (q1.head + q1.len) q1.buf.length with h | h
      · exact h
      · exfalso
        have hEv : E = q1.head + q1.len - q1.buf.length := by rw [hE, if_pos (by omega)]
        omega
    have hEv : E = q1.head + q1.len := by rw [hE, if_neg (by omega)]
    have htakeLen : (vs.take (q1.buf.length - E)).length = q1.buf.length - E := by
      rw [List.length_take]; omega
    have hdropLen : (vs.drop (q1.buf.length - E)).length = vs.length - (q1.buf.length - E) := by
      rw [List.length_drop]
    have houter : vs.length - (q1.buf.length - E) ≤ q1.head := by omega
    have hwfr : WF
        { head := q1.head,
          buf := copyTo (copyTo q1.buf E (vs.take (q1.buf.length - E))) 0
            (vs.drop (q1.buf.length - E)),
          len := q1.len + vs.length } := by
      constructor
      · simp only [cap, copyTo_length]; omega
      · simp only [cap, copyTo_length]; omega
    refine ⟨hwfr, rfl, ?_⟩
    apply List.ext_getElem?
    intro j
    by_cases hj : j < q1.len + vs.length
    · rw [toList_getElem? _ hwfr j (by simpa using hj)]
      simp only [atIdx, toPhysicalIdx, wrapAdd, cap, copyTo_length]
      by_cases hjl : j < q1.len
      · rw [List.getElem?_append_left (by rw [toList_length q1 hwf1]; omega),
          toList_getElem? q1 hwf1 j (by omega)]
        simp only [atIdx, toPhysicalIdx, wrapAdd, cap]
        rw [if_neg (by omega), copyTo_getElem?_ge _ _ _ _ (by omega),
          copyTo_getElem?_lt _ _ _ _ (by omega)]
      · rw [List.getElem?_append_right (by rw [toList_length q1 hwf1]; omega),
          toList_length q1 hwf1]
        by_cases hth : j - q1.len < q1.buf.length - E
        · rw [if_neg (by omega), copyTo_getElem?_ge _ _ _ _ (by omega),
            copyTo_getElem?_in _ _ _ _ (by omega) (by rw [htakeLen]; omega) (by omega)]
          have hidx : q1.head + j - E = j - q1.len := by omega
          rw [hidx, List.getElem?_take_of_lt hth]
        · rw [if_pos (by omega),
            copyTo_getElem?_in _ _ _ _ (by omega) (by rw [hdropLen]; omega)
              (by rw [copyTo_length]; omega)]
          rw [List.getElem?_drop]
          congr 1
          omega
    · rw [List.getElem?_eq_none_iff.mpr (by rw [toList_length _ hwfr]; simp only []; omega),
        List.getElem?_eq_none_iff.mpr
          (by rw [List.length_append, toList_length q1 hwf1]; omega)]

end Deque

namespace Deque

variable {α : Type}

theorem popAll_eq (q : Deque α) (hwf : q.WF) :
    (q.PopAll).1 = q.toList ∧ (q.PopAll).2.len = 0 ∧ (q.PopAll).2.WF ∧
    (q.PopAll).2.toList = [] := by
  refine ⟨?_, rfl, ⟨Nat.zero_le _, hwf.2⟩, rfl⟩
  exact filterMap_range_eq _ q.len q.toList (toList_length q hwf)
    (fun i hi => (toList_getElem? q hwf i hi).symm)

end Deque

namespace DQ

variable {α : Type}

theorem grow_eq_deque (g : Nat → Nat → Nat) (d : α) (q : Deque α) (n : Nat) :
    DQ.Grow g d q n = Deque.Grow g d q n := by
  simp only [DQ.Grow, Deque.Grow]
  by_cases h0 : n ≤ q.cap - q.len
  · rw [if_pos (show n - (q.cap - q.len) = 0 by omega), if_pos h0]
  · rw [if_neg (show ¬ n - (q.cap - q.len) = 0 by omega), if_neg h0]

theorem pushFront_eq_deque (g : Nat → Nat → Nat) (d : α) (q : Deque α) (vs : List α) :
    DQ.PushFront g d q vs = Deque.PushFront g d q vs := by
  unfold DQ.PushFront Deque.PushFront
  rw [grow_eq_deque]

theorem pushBack_eq_deque (g : Nat → Nat → Nat) (d : α) (q : Deque α) (vs : List α) :
    DQ.PushBack g d q vs = Deque.PushBack g d q vs := by
  simp only [DQ.PushBack, Deque.PushBack]
  rw [grow_eq_deque]
  set q1 := Deque.Grow g d q vs.length with hq1
  by_cases hlt : vs.length < q1.cap - q1.wrapAdd q1.head q1.len
  · rw [if_pos hlt, if_pos (Nat.le_of_lt hlt)]
  · rw [if_neg hlt]
    by_cases heq : vs.length ≤ q1.cap - q1.wrapAdd q1.head q1.len
    · rw [if_pos heq]
      have hlen : q1.cap - q1.wrapAdd q1.head q1.len = vs.length := by omega
      rw [hlen, List.take_length, List.drop_length]
      rfl
    · rw [if_neg heq]

theorem popFront_eq_deque (q : Deque α) : DQ.PopFront q = Deque.PopFront q := rfl

theorem popBack_eq_deque (q : Deque α) : DQ.PopBack q = Deque.PopBack q := rfl

theorem popAllTake_eq (q : Deque α) (hwf : q.WF) (k : Nat) :
    (DQ.PopAllTake q k).1 = q.toList.take k ∧
    (DQ.PopAllTake q k).2.toList = q.toList.drop k ∧ (DQ.PopAllTake q k).2.WF := by
  induction k generalizing q with
  | zero => exact ⟨rfl, (List.drop_zero _).symm, hwf⟩
  | succ k ih =>
    obtain ⟨hp1, hwf2, hlen2, hcap2, htl2⟩ := Deque.popFront_eq q hwf
    by_cases h0 : q.len = 0
    · have htl : q.toList = [] :=
        List.length_eq_zero.mp (by rw [Deque.toList_length q hwf, h0])
      have hpop : DQ.PopFront q = (none, q) := by
        unfold DQ.PopFront
        rw [if_pos h0]
      unfold DQ.PopAllTake
      rw [hpop, htl]
      exact ⟨by simp, by simp [htl], hwf⟩
    · have hlpos : 0 < q.toList.length := by rw [Deque.toList_length q hwf]; omega
      obtain ⟨v, rest, hvr⟩ : ∃ v rest, q.toList = v :: rest := by
        cases hq : q.toList with
        | nil => rw [hq] at hlpos; simp at hlpos
        | cons v rest => exact ⟨v, rest, rfl⟩
      have hpair : DQ.PopFront q = (some v, (Deque.PopFront q).2) := by
        have h1 : DQ.PopFront q = ((Deque.PopFront q).1, (Deque.PopFront q).2) := rfl
        rw [h1, hp1, hvr]
        rfl
      obtain ⟨ih1, ih2, ih3⟩ := ih (Deque.PopFront q).2 hwf2
      unfold DQ.PopAllTake
      rw [hpair]
      have htail : (Deque.PopFront q).2.toList = rest := by rw [htl2, hvr]; rfl
      refine ⟨?_, ?_, ih3⟩
      · show v :: (DQ.PopAllTake (Deque.PopFront q).2 k).1 = _
        rw [ih1, htail, hvr, List.take_succ_cons]
      · show (DQ.PopAllTake (Deque.PopFront q).2 k).2.toList = _
        rw [ih2, htail, hvr, List.drop_succ_cons]

end DQ

/-! ### Permutation lemmas for the heap loops -/

theorem cons_set_perm {α : Type} :
    ∀ (l : List α) (m : Nat) (x b : α), l[m]? = some b →
      List.Perm (b :: l.set m x) (x :: l) := by
  intro l
  induction l with
  | nil => intro m x b hm; simp at hm
  | cons a t ih =>
    intro m x b hm
    cases m with
    | zero =>
      rw [List.getElem?_cons_zero] at hm
      obtain rfl : a = b := by injection hm
      exact List.Perm.swap x a t
    | succ m =>
      rw [List.getElem?_cons_succ] at hm
      exact (List.Perm.swap a b (t.set m x)).trans
        (((ih m x b hm).cons a).trans (List.Perm.swap x a t))

theorem set_set_perm {α : Type} :
    ∀ (l : List α) (i j : Nat) (ai aj : α), l[i]? = some ai → l[j]? = some aj →
      List.Perm ((l.set i aj).set j ai) l := by
  intro l
  induction l with
  | nil => intro i j ai aj hi hj; simp at hi
  | cons a t ih =>
    intro i j ai aj hi hj
    cases i with
    | zero =>
      rw [List.getElem?_cons_zero] at hi
      obtain rfl : a = ai := by injection hi
      cases j with
      | zero =>
        rw [List.getElem?_cons_zero] at hj
        obtain rfl : a = aj := by injection hj
        exact List.Perm.refl _
      | succ m =>
        rw [List.getElem?_cons_succ] at hj
        exact cons_set_perm t m a aj hj
    | succ n =>
      rw [List.getElem?_cons_succ] at hi
      cases j with
      | zero =>
        rw [List.getElem?_cons_zero] at hj
        obtain rfl : a = aj := by injection hj
        exact cons_set_perm t n a ai hi
      | succ m =>
        rw [List.getElem?_cons_succ] at hj
        exact (ih n m ai aj hi hj).cons a

namespace Heap

variable {α : Type}

/-! ### Branch-selection equations for the sift loops -/

theorem upAux_eq_root (cmp : α → α → Int) (buf : List α) (j : Nat) (x : α)
    (h : (j - 1) / 2 = j) : upAux cmp buf j x = buf.set j x := by
  unfold upAux
  rw [if_pos h]

theorem upAux_eq_none (cmp : α → α → Int) (buf : List α) (j : Nat) (x : α)
    (h : ¬ (j - 1) / 2 = j) (hn : buf[(j - 1) / 2]? = none) :
    upAux cmp buf j x = buf.set j x := by
  rw [upAux.eq_def, if_neg h]
  split
  · rfl
  · rename_i bi hbi
    rw [hn] at hbi
    cases hbi

theorem upAux_eq_some (cmp : α → α → Int) (buf : List α) (j : Nat) (x bi : α)
    (h : ¬ (j - 1) / 2 = j) (hs : buf[(j - 1) / 2]? = some bi) :
    upAux cmp buf j x =
      if 0 ≤ cmp x bi then buf.set j x else upAux cmp (buf.set j bi) ((j - 1) / 2) x := by
  rw [upAux.eq_def, if_neg h]
  split
  · rename_i hbn
    rw [hs] at hbn
    cases hbn
  · rename_i bi' hbi
    rw [hs] at hbi
    obtain rfl : bi = bi' := by injection hbi
    rfl

theorem downAux_eq_none (cmp : α → α → Int) (buf : List α) (i : Nat) (x : α)
    (h1 : buf[2 * i + 1]? = none) : downAux cmp buf i x = buf.set i x := by
  rw [downAux.eq_def]
  split
  · rfl
  · rename_i b1 hb1
    rw [h1] at hb1
    cases hb1

theorem downAux_eq_one (cmp : α → α → Int) (buf : List α) (i : Nat) (x b1 : α)
    (h1 : buf[2 * i + 1]? = some b1) (h2 : buf[2 * i + 2]? = none) :
    downAux cmp buf i x =
      if cmp x b1 ≤ 0 then buf.set i x else downAux cmp (buf.set i b1) (2 * i + 1) x := by
  rw [downAux.eq_def]
  split
  · rename_i hb1
    rw [h1] at hb1
    cases hb1
  · rename_i b1' hb1
    rw [h1] at hb1
    obtain rfl : b1 = b1' := by injection hb1
    split
    · rename_i b2' hb2
      rw [h2] at hb2
      cases hb2
    · rfl

theorem downAux_eq_two (cmp : α → α → Int) (buf : List α) (i : Nat) (x b1 b2 : α)
    (h1 : buf[2 * i + 1]? = some b1) (h2 : buf[2 * i + 2]? = some b2) :
    downAux cmp buf i x =
      if cmp b2 b1 < 0 then
        if cmp x b2 ≤ 0 then buf.set i x else downAux cmp (buf.set i b2) (2 * i + 2) x
      else
        if cmp x b1 ≤ 0 then buf.set i x else downAux cmp (buf.set i b1) (2 * i + 1) x := by
  rw [downAux.eq_def]
  split
  · rename_i hb1
    rw [h1] at hb1
    cases hb1
  · rename_i b1' hb1
    rw [h1] at hb1
    obtain rfl : b1 = b1' := by injection hb1
    split
    · rename_i b2' hb2
      rw [h2] at hb2
      obtain rfl : b2 = b2' := by injection hb2
      rfl
    · rename_i hb2
      rw [h2] at hb2
      cases hb2

theorem upAux_perm (cmp : α → α → Int) (buf : List α) (j : Nat) (x : α) :
    j < buf.length → List.Perm (upAux cmp buf j x) (buf.set j x) := by
  induction buf, j, x using Heap.upAux.induct cmp with
  | case1 buf j x h =>
    intro hj
    rw [upAux_eq_root cmp buf j x h]
  | case2 buf j x h hnone =>
    intro hj
    rw [upAux_eq_none cmp buf j x h hnone]
  | case3 buf j x h bi hsome hcmp =>
    intro hj
    rw [upAux_eq_some cmp buf j x bi h hsome, if_pos hcmp]
  | case4 buf j x h bi hsome hcmp ih =>
    intro hj
    have hij : (j - 1) / 2 < j := by omega
    rw [upAux_eq_some cmp buf j x bi h hsome, if_neg hcmp]
    refine (ih (by rw [List.length_set]; omega)).trans ?_
    have hA1 : (buf.set j x)[j]? = some x := List.getElem?_set_eq_of_lt x hj
    have hA2 : (buf.set j x)[(j - 1) / 2]? = some bi := by
      rw [List.getElem?_set_ne (by omega)]
      exact hsome
    have hset : buf.set j bi = (buf.set j x).set j bi := (List.set_set x bi buf j).symm
    rw [hset]
    exact set_set_perm (buf.set j x) j ((j - 1) / 2) x bi hA1 hA2

theorem downAux_perm (cmp : α → α → Int) (buf : List α) (i : Nat) (x : α) :
    i < buf.length → List.Perm (downAux cmp buf i x) (buf.set i x) := by
  induction buf, i, x using Heap.downAux.induct cmp with
  | case1 buf i x h1 =>
    intro hi
    rw [downAux_eq_none cmp buf i x h1]
  | case2 buf i x b1 h1 b2 h2 hlt hx =>
    intro hi
    rw [downAux_eq_two cmp buf i x b1 b2 h1 h2, if_pos hlt, if_pos hx]
  | case3 buf i x b1 h1 b2 h2 hlt hx ih =>
    intro hi
    have hjlen : 2 * i + 2 < buf.length := (List.getElem?_eq_some.mp h2).1
    rw [downAux_eq_two cmp buf i x b1 b2 h1 h2, if_pos hlt, if_neg hx]
    refine (ih (by rw [List.length_set]; omega)).trans ?_
    have hA1 : (buf.set i x)[i]? = some x := List.getElem?_set_eq_of_lt x hi
    have hA2 : (buf.set i x)[2 * i + 2]? = some b2 := by
      rw [List.getElem?_set_ne (by omega)]
      exact h2
    have hset : buf.set i b2 = (buf.set i x).set i b2 := (List.set_set x b2 buf i).symm
    rw [hset]
    exact set_set_perm (buf.set i x) i (2 * i + 2) x b2 hA1 hA2
  | case4 buf i x b1 h1 b2 h2 hlt hx =>
    intro hi
    rw [downAux_eq_two cmp buf i x b1 b2 h1 h2, if_neg hlt, if_pos hx]
  | case5 buf i x b1 h1 b2 h2 hlt hx ih =>
    intro hi
    have hjlen : 2 * i + 1 < buf.length := (List.getElem?_eq_some.mp h1).1
    rw [downAux_eq_two cmp buf i x b1 b2 h1 h2, if_neg hlt, if_neg hx]
    refine (ih (by rw [List.length_set]; omega)).trans ?_
    have hA1 : (buf.set i x)[i]? = some x := List.getElem?_set_eq_of_lt x hi
    have hA2 : (buf.set i x)[2 * i + 1]? = some b1 := by
      rw [List.getElem?_set_ne (by omega)]
      exact h1
    have hset : buf.set i b1 = (buf.set i x).set i b1 := (List.set_set x b1 buf i).symm
    rw [hset]
    exact set_set_perm (buf.set i x) i (2 * i + 1) x b1 hA1 hA2
  | case6 buf i x b1 h1 h2 hx =>
    intro hi
    rw [downAux_eq_one cmp buf i x b1 h1 h2, if_pos hx]
  | case7 buf i x b1 h1 h2 hx ih =>
    intro hi
    have hjlen : 2 * i + 1 < buf.length := (List.getElem?_eq_some.mp h1).1
    rw [downAux_eq_one cmp buf i x b1 h1 h2, if_neg hx]
    refine (ih (by rw [List.length_set]; omega)).trans ?_
    have hA1 : (buf.set i x)[i]? = some x := List.getElem?_set_eq_of_lt x hi
    have hA2 : (buf.set i x)[2 * i + 1]? = some b1 := by
      rw [List.getElem?_set_ne (by omega)]
      exact h1
    have hset : buf.set i b1 = (buf.set i x).set i b1 := (List.set_set x b1 buf i).symm
    rw [hset]
    exact set_set_perm (buf.set i x) i (2 * i + 1) x b1 hA1 hA2

end Heap

namespace Heap

variable {α : Type}

theorem isHeapBuf_set_up (cmp : α → α → Int) (buf : List α) (j : Nat) (x : α)
    (hj : j < buf.length)
    (hU1 : ∀ k a b, 0 < k → k ≠ j → (k - 1) / 2 ≠ j → buf[k]? = some a →
      buf[(k - 1) / 2]? = some b → 0 ≤ cmp a b)
    (hU2 : ∀ k a, 0 < k → (k - 1) / 2 = j → buf[k]? = some a → 0 ≤ cmp a x)
    (hroot : (j - 1) / 2 = j ∨ ∀ b, buf[(j - 1) / 2]? = some b → 0 ≤ cmp x b) :
    IsHeapBuf cmp (buf.set j x) := by
  intro k a b hk hka hkb
  by_cases hkj : k = j
  · subst hkj
    have hax : a = x := by
      rw [List.getElem?_set_eq_of_lt x hj] at hka
      exact (Option.some.inj hka).symm
    subst hax
    have hb : buf[(k - 1) / 2]? = some b := by
      rwa [List.getElem?_set_ne (by omega)] at hkb
    rcases hroot with hr | hr
    · exact absurd hr (by omega)
    · exact hr b hb
  · have ha : buf[k]? = some a := by rwa [List.getElem?_set_ne (by omega)] at hka
    by_cases hpj : (k - 1) / 2 = j
    · have hbx : b = x := by
        rw [hpj, List.getElem?_set_eq_of_lt x hj] at hkb
        exact (Option.some.inj hkb).symm
      subst hbx
      exact hU2 k a hk hpj ha
    · have hb : buf[(k - 1) / 2]? = some b := by
        rwa [List.getElem?_set_ne (by omega)] at hkb
      exact hU1 k a b hk hkj hpj ha hb

theorem isHeapBuf_set_down (cmp : α → α → Int) (buf : List α) (i : Nat) (x : α)
    (hi : i < buf.length)
    (hD1 : ∀ k a b, 0 < k → k ≠ i → (k - 1) / 2 ≠ i → buf[k]? = some a →
      buf[(k - 1) / 2]? = some b → 0 ≤ cmp a b)
    (hD3 : 0 < i → ∀ b, buf[(i - 1) / 2]? = some b → 0 ≤ cmp x b)
    (hch : ∀ k a, (k = 2 * i + 1 ∨ k = 2 * i + 2) → buf[k]? = some a → 0 ≤ cmp a x) :
    IsHeapBuf cmp (buf.set i x) := by
  intro k a b hk hka hkb
  by_cases hki : k = i
  · subst hki
    have hax : a = x := by
      rw [List.getElem?_set_eq_of_lt x hi] at hka
      exact (Option.some.inj hka).symm
    subst hax
    have hb : buf[(k - 1) / 2]? = some b := by
      rwa [List.getElem?_set_ne (by omega)] at hkb
    exact hD3 hk b hb
  · have ha : buf[k]? = some a := by rwa [List.getElem?_set_ne (by omega)] at hka
    by_cases hpi : (k - 1) / 2 = i
    · have hbx : b = x := by
        rw [hpi, List.getElem?_set_eq_of_lt x hi] at hkb
        exact (Option.some.inj hkb).symm
      subst hbx
      exact hch k a (by omega) ha
    · have hb : buf[(k - 1) / 2]? = some b := by
        rwa [List.getElem?_set_ne (by omega)] at hkb
      exact hD1 k a b hk hki hpi ha hb

theorem upAux_isHeap (cmp : α → α → Int)
    (hsym : ∀ a b, cmp a b ≤ 0 ↔ 0 ≤ cmp b a)
    (htrans : ∀ a b c, cmp a b ≤ 0 → cmp b c ≤ 0 → cmp a c ≤ 0)
    (buf : List α) (j : Nat) (x : α) :
    j < buf.length →
    (∀ k a b, 0 < k → k ≠ j → (k - 1) / 2 ≠ j → buf[k]? = some a →
      buf[(k - 1) / 2]? = some b → 0 ≤ cmp a b) →
    (∀ k a, 0 < k → (k - 1) / 2 = j → buf[k]? = some a → 0 ≤ cmp a x) →
    (∀ k a b, 0 < j → 0 < k → (k - 1) / 2 = j → buf[k]? = some a →
      buf[(j - 1) / 2]? = some b → 0 ≤ cmp a b) →
    IsHeapBuf cmp (upAux cmp buf j x) := by
  induction buf, j, x using Heap.upAux.induct cmp with
  | case1 buf j x h =>
    intro hj hU1 hU2 hU3
    rw [upAux_eq_root cmp buf j x h]
    exact isHeapBuf_set_up cmp buf j x hj hU1 hU2 (Or.inl h)
  | case2 buf j x h hnone =>
    intro hj hU1 hU2 hU3
    rw [upAux_eq_none cmp buf j x h hnone]
    refine isHeapBuf_set_up cmp buf j x hj hU1 hU2 (Or.inr ?_)
    intro b hb
    rw [hnone] at hb
    cases hb
  | case3 buf j x h bi hsome hcmp =>
    intro hj hU1 hU2 hU3
    rw [upAux_eq_some cmp buf j x bi h hsome, if_pos hcmp]
    refine isHeapBuf_set_up cmp buf j x hj hU1 hU2 (Or.inr ?_)
    intro b hb
    rw [hsome] at hb
    obtain rfl : bi = b := by injection hb
    exact hcmp
  | case4 buf j x h bi hsome hcmp ih =>
    intro hj hU1 hU2 hU3
    rw [upAux_eq_some cmp buf j x bi h hsome, if_neg hcmp]
    have hjpos : 0 < j := by omega
    have hxbi : cmp x bi ≤ 0 := by omega
    apply ih
    · rw [List.length_set]
      omega
    · intro k a b hk hki hpi hka hpb
      have hkj : k ≠ j := by
        intro he
        subst he
        exact hpi rfl
      have hka' : buf[k]? = some a := by rwa [List.getElem?_set_ne (by omega)] at hka
      by_cases hpj : (k - 1) / 2 = j
      · have hb : b = bi := by
          rw [hpj, List.getElem?_set_eq_of_lt bi hj] at hpb
          exact (Option.some.inj hpb).symm
        subst hb
        exact hU3 k a b hjpos hk hpj hka' hsome
      · have hpb' : buf[(k - 1) / 2]? = some b := by
          rwa [List.getElem?_set_ne (by omega)] at hpb
        exact hU1 k a b hk hkj hpj hka' hpb'
    · intro k a hk hpi hka
      by_cases hkj : k = j
      · subst hkj
        have ha : a = bi := by
          rw [List.getElem?_set_eq_of_lt bi hj] at hka
          exact (Option.some.inj hka).symm
        subst ha
        exact (hsym x a).mp hxbi
      · have hka' : buf[k]? = some a := by rwa [List.getElem?_set_ne (by omega)] at hka
        have h1 : 0 ≤ cmp a bi :=
          hU1 k a bi hk hkj (by omega) hka' (by rw [hpi]; exact hsome)
        exact (hsym x a).mp (htrans x bi a hxbi ((hsym bi a).mpr h1))
    · intro k a b hi0 hk hpi hka hgb
      have hgb' : buf[((j - 1) / 2 - 1) / 2]? = some b := by
        rwa [List.getElem?_set_ne (by omega)] at hgb
      by_cases hkj : k = j
      · subst hkj
        have ha : a = bi := by
          rw [List.getElem?_set_eq_of_lt bi hj] at hka
          exact (Option.some.inj hka).symm
        subst ha
        exact hU1 ((k - 1) / 2) a b hi0 (by omega) (by omega) hsome hgb'
      · have hka' : buf[k]? = some a := by rwa [List.getElem?_set_ne (by omega)] at hka
        have h1 : 0 ≤ cmp a bi :=
          hU1 k a bi hk hkj (by omega) hka' (by rw [hpi]; exact hsome)
        have h2 : 0 ≤ cmp bi b :=
          hU1 ((j - 1) / 2) bi b hi0 (by omega) (by omega) hsome hgb'
        exact (hsym b a).mp (htrans b bi a ((hsym b bi).mpr h2) ((hsym bi a).mpr h1))

end Heap

namespace Heap

variable {α : Type}

theorem downAux_step_inv (cmp : α → α → Int) (buf : List α) (i j : Nat) (x bj : α)
    (hi : i < buf.length) (hij : i < j) (hj2 : (j - 1) / 2 = i)
    (hbj : buf[j]? = some bj) (hx : ¬ cmp x bj ≤ 0)
    (hsib : ∀ s a, 0 < s → (s - 1) / 2 = i → s ≠ j → buf[s]? = some a → 0 ≤ cmp a bj)
    (hD1 : ∀ k a b, 0 < k → k ≠ i → (k - 1) / 2 ≠ i → buf[k]? = some a →
      buf[(k - 1) / 2]? = some b → 0 ≤ cmp a b)
    (hD2 : 0 < i → ∀ k a b, 0 < k → (k - 1) / 2 = i → buf[k]? = some a →
      buf[(i - 1) / 2]? = some b → 0 ≤ cmp a b) :
    (∀ k a b, 0 < k → k ≠ j → (k - 1) / 2 ≠ j → (buf.set i bj)[k]? = some a →
      (buf.set i bj)[(k - 1) / 2]? = some b → 0 ≤ cmp a b) ∧
    (0 < j → ∀ k a b, 0 < k → (k - 1) / 2 = j → (buf.set i bj)[k]? = some a →
      (buf.set i bj)[(j - 1) / 2]? = some b → 0 ≤ cmp a b) ∧
    (0 < j → ∀ b, (buf.set i bj)[(j - 1) / 2]? = some b → 0 ≤ cmp x b) := by
  refine ⟨?_, ?_, ?_⟩
  · intro k a b hk hkj hpj hka hpb
    by_cases hki : k = i
    · subst hki
      have ha : a = bj := by
        rw [List.getElem?_set_eq_of_lt bj hi] at hka
        exact (Option.some.inj hka).symm
      subst ha
      have hb : buf[(k - 1) / 2]? = some b := by
        rwa [List.getElem?_set_ne (by omega)] at hpb
      exact hD2 hk j a b (by omega) hj2 hbj hb
    · have hka' : buf[k]? = some a := by rwa [List.getElem?_set_ne (by omega)] at hka
      by_cases hpi : (k - 1) / 2 = i
      · have hb : b = bj := by
          rw [hpi, List.getElem?_set_eq_of_lt bj hi] at hpb
          exact (Option.some.inj hpb).symm
        subst hb
        exact hsib k a hk hpi hkj hka'
      · have hpb' : buf[(k - 1) / 2]? = some b := by
          rwa [List.getElem?_set_ne (by omega)] at hpb
        exact hD1 k a b hk hki hpi hka' hpb'
  · intro hj0 k a b hk hpk hka hpb
    have hb : b = bj := by
      rw [hj2, List.getElem?_set_eq_of_lt bj hi] at hpb
      exact (Option.some.inj hpb).symm
    subst hb
    have hka' : buf[k]? = some a := by rwa [List.getElem?_set_ne (by omega)] at hka
    exact hD1 k a b hk (by omega) (by omega) hka' (by rw [hpk]; exact hbj)
  · intro hj0 b hpb
    have hb : b = bj := by
      rw [hj2, List.getElem?_set_eq_of_lt bj hi] at hpb
      exact (Option.some.inj hpb).symm
    subst hb
    omega

theorem downAux_isHeap (cmp : α → α → Int)
    (hsym : ∀ a b, cmp a b ≤ 0 ↔ 0 ≤ cmp b a)
    (htrans : ∀ a b c, cmp a b ≤ 0 → cmp b c ≤ 0 → cmp a c ≤ 0)
    (buf : List α) (i : Nat) (x : α) :
    i < buf.length →
    (∀ k a b, 0 < k → k ≠ i → (k - 1) / 2 ≠ i → buf[k]? = some a →
      buf[(k - 1) / 2]? = some b → 0 ≤ cmp a b) →
    (0 < i → ∀ k a b, 0 < k → (k - 1) / 2 = i → buf[k]? = some a →
      buf[(i - 1) / 2]? = some b → 0 ≤ cmp a b) →
    (0 < i → ∀ b, buf[(i - 1) / 2]? = some b → 0 ≤ cmp x b) →
    IsHeapBuf cmp (downAux cmp buf i x) := by
  induction buf, i, x using Heap.downAux.induct cmp with
  | case1 buf i x h1 =>
    intro hi hD1 hD2 hD3
    rw [downAux_eq_none cmp buf i x h1]
    refine isHeapBuf_set_down cmp buf i x hi hD1 hD3 ?_
    intro k a hk hka
    have hlen := (List.getElem?_eq_some.mp hka).1
    have hn := List.getElem?_eq_none_iff.mp h1
    exact absurd hlen (by omega)
  | case2 buf i x b1 h1 b2 h2 hlt hx =>
    intro hi hD1 hD2 hD3
    rw [downAux_eq_two cmp buf i x b1 b2 h1 h2, if_pos hlt, if_pos hx]
    refine isHeapBuf_set_down cmp buf i x hi hD1 hD3 ?_
    intro k a hk hka
    rcases hk with hk | hk
    · subst hk
      rw [h1] at hka
      obtain rfl : b1 = a := by injection hka
      exact (hsym x b1).mp (htrans x b2 b1 hx (by omega))
    · subst hk
      rw [h2] at hka
      obtain rfl : b2 = a := by injection hka
      exact (hsym x b2).mp hx
  | case3 buf i x b1 h1 b2 h2 hlt hx ih =>
    intro hi hD1 hD2 hD3
    have hjlen : 2 * i + 2 < buf.length := (List.getElem?_eq_some.mp h2).1
    rw [downAux_eq_two cmp buf i x b1 b2 h1 h2, if_pos hlt, if_neg hx]
    obtain ⟨hd1, hd2, hd3⟩ := downAux_step_inv cmp buf i (2 * i + 2) x b2 hi (by omega)
      (by omega) h2 hx
      (by
        intro s a hs hps hsj hsa
        have hs1 : s = 2 * i + 1 := by omega
        subst hs1
        rw [h1] at hsa
        obtain rfl : b1 = a := by injection hsa
        exact (hsym b2 b1).mp (by omega))
      hD1 hD2
    exact ih (by rw [List.length_set]; omega) hd1 hd2 hd3
  | case4 buf i x b1 h1 b2 h2 hlt hx =>
    intro hi hD1 hD2 hD3
    rw [downAux_eq_two cmp buf i x b1 b2 h1 h2, if_neg hlt, if_pos hx]
    refine isHeapBuf_set_down cmp buf i x hi hD1 hD3 ?_
    intro k a hk hka
    rcases hk with hk | hk
    · subst hk
      rw [h1] at hka
      obtain rfl : b1 = a := by injection hka
      exact (hsym x b1).mp hx
    · subst hk
      rw [h2] at hka
      obtain rfl : b2 = a := by injection hka
      exact (hsym x b2).mp (htrans x b1 b2 hx ((hsym b1 b2).mpr (by omega)))
  | case5 buf i x b1 h1 b2 h2 hlt hx ih =>
    intro hi hD1 hD2 hD3
    have hjlen : 2 * i + 1 < buf.length := (List.getElem?_eq_some.mp h1).1
    rw [downAux_eq_two cmp buf i x b1 b2 h1 h2, if_neg hlt, if_neg hx]
    obtain ⟨hd1, hd2, hd3⟩ := downAux_step_inv cmp buf i (2 * i + 1) x b1 hi (by omega)
      (by omega) h1 hx
      (by
        intro s a hs hps hsj hsa
        have hs2 : s = 2 * i + 2 := by omega
        subst hs2
        rw [h2] at hsa
        obtain rfl : b2 = a := by injection hsa
        omega)
      hD1 hD2
    exact ih (by rw [List.length_set]; omega) hd1 hd2 hd3
  | case6 buf i x b1 h1 h2 hx =>
    intro hi hD1 hD2 hD3
    rw [downAux_eq_one cmp buf i x b1 h1 h2, if_pos hx]
    refine isHeapBuf_set_down cmp buf i x hi hD1 hD3 ?_
    intro k a hk hka
    rcases hk with hk | hk
    · subst hk
      rw [h1] at hka
      obtain rfl : b1 = a := by injection hka
      exact (hsym x b1).mp hx
    · subst hk
      rw [h2] at hka
      cases hka
  | case7 buf i x b1 h1 h2 hx ih =>
    intro hi hD1 hD2 hD3
    have hjlen : 2 * i + 1 < buf.length := (List.getElem?_eq_some.mp h1).1
    rw [downAux_eq_one cmp buf i x b1 h1 h2, if_neg hx]
    obtain ⟨hd1, hd2, hd3⟩ := downAux_step_inv cmp buf i (2 * i + 1) x b1 hi (by omega)
      (by omega) h1 hx
      (by
        intro s a hs hps hsj hsa
        have hs2 : s = 2 * i + 2 := by omega
        subst hs2
        rw [h2] at hsa
        cases hsa)
      hD1 hD2
    exact ih (by rw [List.length_set]; omega) hd1 hd2 hd3

end Heap

namespace Heap

variable {α : Type}

theorem root_min (cmp : α → α → Int)
    (hsym : ∀ a b, cmp a b ≤ 0 ↔ 0 ≤ cmp b a)
    (htrans : ∀ a b c, cmp a b ≤ 0 → cmp b c ≤ 0 → cmp a c ≤ 0)
    (buf : List α) (hh : IsHeapBuf cmp buf) (r : α) (hr : buf[0]? = some r) :
    ∀ (k : Nat) (a : α), buf[k]? = some a → cmp r a ≤ 0 := by
  have main : ∀ k : Nat, (∀ m : Nat, m < k → ∀ a, buf[m]? = some a → cmp r a ≤ 0) →
      ∀ a, buf[k]? = some a → cmp r a ≤ 0 := by
    intro k ih a hka
    rcases Nat.eq_zero_or_pos k with rfl | hk
    · rw [hr] at hka
      obtain rfl : r = a := by injection hka
      rcases Int.le_total (cmp r r) 0 with h | h
      · exact h
      · exact (hsym r r).mpr h
    · have hklen : k < buf.length := (List.getElem?_eq_some.mp hka).1
      have hplen : (k - 1) / 2 < buf.length := by omega
      obtain ⟨b, hb⟩ : ∃ b, buf[(k - 1) / 2]? = some b :=
        ⟨_, List.getElem?_eq_getElem hplen⟩
      have h1 : 0 ≤ cmp a b := hh k a b hk hka hb
      have h2 : cmp r b ≤ 0 := ih ((k - 1) / 2) (by omega) b hb
      exact htrans r b a h2 ((hsym b a).mpr h1)
  intro k
  exact Nat.strong_induction_on k main

theorem isHeapBuf_nil (cmp : α → α → Int) : IsHeapBuf cmp ([] : List α) := by
  intro k a b hk hka hkb
  rw [List.getElem?_nil] at hka
  cases hka

theorem push_eq (h : Heap α) (x : α) :
    h.Push x = ⟨upAux h.compare (h.buf ++ [x]) h.buf.length x, h.compare⟩ := by
  simp only [Push, up, List.getElem?_concat_length]

theorem push_perm (h : Heap α) (x : α) : List.Perm (h.Push x).buf (x :: h.buf) := by
  rw [push_eq]
  have h1 : h.buf.length < (h.buf ++ [x]).length := by simp
  refine (upAux_perm h.compare _ _ _ h1).trans ?_
  have hset : (h.buf ++ [x]).set h.buf.length x = h.buf ++ [x] := by
    apply List.ext_getElem?
    intro n
    by_cases hn : n = h.buf.length
    · rw [hn, List.getElem?_set_eq_of_lt x h1, List.getElem?_concat_length]
    · rw [List.getElem?_set_ne (by omega)]
  rw [hset]
  exact List.perm_append_singleton x h.buf

theorem push_isHeap (cmp : α → α → Int)
    (hsym : ∀ a b, cmp a b ≤ 0 ↔ 0 ≤ cmp b a)
    (htrans : ∀ a b c, cmp a b ≤ 0 → cmp b c ≤ 0 → cmp a c ≤ 0)
    (h : Heap α) (hcmp : h.compare = cmp) (hh : IsHeapBuf cmp h.buf) (x : α) :
    IsHeapBuf cmp (h.Push x).buf := by
  rw [push_eq, hcmp]
  apply upAux_isHeap cmp hsym htrans _ _ _ (by simp)
  · intro k a b hk hkj hpj hka hpb
    have hklen : k < (h.buf ++ [x]).length := (List.getElem?_eq_some.mp hka).1
    simp only [List.length_append, List.length_singleton] at hklen
    have hka' : h.buf[k]? = some a := by
      rwa [List.getElem?_append_left (by omega)] at hka
    have hpb' : h.buf[(k - 1) / 2]? = some b := by
      rwa [List.getElem?_append_left (by omega)] at hpb
    exact hh k a b hk hka' hpb'
  · intro k a hk hpk hka
    have hklen : k < (h.buf ++ [x]).length := (List.getElem?_eq_some.mp hka).1
    simp only [List.length_append, List.length_singleton] at hklen
    exact absurd hklen (by omega)
  · intro k a b hj0 hk hpk hka hpb
    have hklen : k < (h.buf ++ [x]).length := (List.getElem?_eq_some.mp hka).1
    simp only [List.length_append, List.length_singleton] at hklen
    exact absurd hklen (by omega)

theorem push_compare (h : Heap α) (x : α) : (h.Push x).compare = h.compare := by
  rw [push_eq]

theorem pop_empty (h : Heap α) (he : h.buf = []) : h.Pop = (none, h) := by
  obtain ⟨buf0, cmp0⟩ := h
  simp only at he
  subst he
  rfl

theorem pop_spec (cmp : α → α → Int)
    (hsym : ∀ a b, cmp a b ≤ 0 ↔ 0 ≤ cmp b a)
    (htrans : ∀ a b c, cmp a b ≤ 0 → cmp b c ≤ 0 → cmp a c ≤ 0)
    (h : Heap α) (hcmp : h.compare = cmp) (hh : IsHeapBuf cmp h.buf)
    (x : α) (rest : List α) (hb : h.buf = x :: rest) :
    (h.Pop).1 = some x ∧ (h.Pop).2.compare = cmp ∧
    List.Perm (x :: (h.Pop).2.buf) h.buf ∧ IsHeapBuf cmp (h.Pop).2.buf ∧
    (h.Pop).2.buf.length = rest.length := by
  obtain ⟨buf0, cmp0⟩ := h
  simp only at hb hcmp hh
  subst hb
  rw [hcmp]
  cases rest with
  | nil =>
    have hpop : Pop ⟨[x], cmp⟩ = (some x, ⟨[], cmp⟩) := rfl
    rw [hpop]
    exact ⟨rfl, rfl, List.Perm.refl _, isHeapBuf_nil cmp, rfl⟩
  | cons y t =>
    have hlpos : 0 < (x :: y :: t).dropLast.length := by
      rw [List.length_dropLast]
      simp
    have hpop : Pop ⟨x :: y :: t, cmp⟩ =
        (some x, Heap.down ⟨(x :: y :: t).dropLast, cmp⟩ 0
          ((x :: y :: t).getLast (List.cons_ne_nil x (y :: t)))) := by
      simp only [Pop]
      rw [if_pos hlpos]
    rw [hpop]
    set last := (x :: y :: t).getLast (List.cons_ne_nil x (y :: t)) with hlast
    have hlast2 : last = (y :: t).getLast (List.cons_ne_nil y t) :=
      List.getLast_cons (List.cons_ne_nil y t)
    have hdperm : List.Perm (downAux cmp ((x :: y :: t).dropLast) 0 last)
        (((x :: y :: t).dropLast).set 0 last) :=
      downAux_perm cmp _ 0 last hlpos
    have hset0 : (((x :: y :: t).dropLast).set 0 last) = last :: (y :: t).dropLast := rfl
    have hperm2 : List.Perm (last :: (y :: t).dropLast) (y :: t) := by
      have hd : (y :: t).dropLast ++ [last] = y :: t := by
        rw [hlast2]
        exact List.dropLast_append_getLast (List.cons_ne_nil y t)
      have hstep : List.Perm ((y :: t).dropLast ++ [last]) (y :: t) := by rw [hd]
      exact ((List.perm_append_singleton last ((y :: t).dropLast)).symm).trans hstep
    have hbufperm : List.Perm (downAux cmp ((x :: y :: t).dropLast) 0 last) (y :: t) :=
      hdperm.trans (hset0 ▸ hperm2)
    refine ⟨rfl, rfl, ?_, ?_, ?_⟩
    · exact hbufperm.cons x
    · refine downAux_isHeap cmp hsym htrans _ 0 last hlpos ?_ ?_ ?_
      · intro k a b hk hkz hpz hka hpb
        have hklen : k < (x :: y :: t).dropLast.length := (List.getElem?_eq_some.mp hka).1
        rw [List.length_dropLast] at hklen
        simp only [List.length_cons] at hklen
        have hka' : (x :: y :: t)[k]? = some a := by
          rw [List.dropLast_eq_take] at hka
          rwa [List.getElem?_take_of_lt (by simp only [List.length_cons]; omega)] at hka
        have hpb' : (x :: y :: t)[(k - 1) / 2]? = some b := by
          rw [List.dropLast_eq_take] at hpb
          rwa [List.getElem?_take_of_lt (by simp only [List.length_cons]; omega)] at hpb
        exact hh k a b hk hka' hpb'
      · intro h0
        exact absurd h0 (by omega)
      · intro h0
        exact absurd h0 (by omega)
    · have hlen := hbufperm.length_eq
      simp only [down, List.length_cons] at hlen ⊢
      omega

end Heap

namespace Heap

variable {α : Type}

theorem popSeq_spec (cmp : α → α → Int)
    (hsym : ∀ a b, cmp a b ≤ 0 ↔ 0 ≤ cmp b a)
    (htrans : ∀ a b c, cmp a b ≤ 0 → cmp b c ≤ 0 → cmp a c ≤ 0) :
    ∀ (k : Nat) (h : Heap α), h.compare = cmp → IsHeapBuf cmp h.buf →
      List.Perm ((h.popSeq k).1 ++ (h.popSeq k).2.buf) h.buf ∧
      IsHeapBuf cmp (h.popSeq k).2.buf ∧ (h.popSeq k).2.compare = cmp ∧
      (h.popSeq k).2.buf.length = h.buf.length - k ∧
      List.Pairwise (fun a b => cmp a b ≤ 0) (h.popSeq k).1 ∧
      (∀ a, a ∈ (h.popSeq k).1 → a ∈ h.buf) := by
  intro k
  induction k with
  | zero =>
    intro h hcmp hh
    exact ⟨List.Perm.refl _, hh, hcmp, by simp [popSeq], List.Pairwise.nil,
      fun a ha => absurd ha (List.not_mem_nil a)⟩
  | succ k ih =>
    intro h hcmp hh
    cases hbuf : h.buf with
    | nil =>
      have hpop := pop_empty h hbuf
      have heq : h.popSeq (k + 1) = ([], h) := by
        unfold popSeq
        rw [hpop]
      rw [heq]
      refine ⟨?_, hh, hcmp, by simp [hbuf], List.Pairwise.nil,
        fun a ha => absurd ha (List.not_mem_nil a)⟩
      show List.Perm ([] ++ h.buf) []
      rw [hbuf]
      exact List.Perm.refl _
    | cons x rest =>
      obtain ⟨hp1, hpcmp, hpperm, hpheap, hplen⟩ :=
        pop_spec cmp hsym htrans h hcmp hh x rest hbuf
      have hpair : h.Pop = (some x, (h.Pop).2) := by
        rw [← hp1]
      have heq : h.popSeq (k + 1) =
          (x :: ((h.Pop).2.popSeq k).1, ((h.Pop).2.popSeq k).2) := by
        have hstep : h.popSeq (k + 1) =
            match h.Pop with
            | (none, h1) => ([], h1)
            | (some v, h1) => (v :: (h1.popSeq k).1, (h1.popSeq k).2) := rfl
        rw [hstep, hpair]
      obtain ⟨ih1, ih2, ih3, ih4, ih5, ih6⟩ := ih (h.Pop).2 hpcmp hpheap
      rw [heq, ← hbuf]
      have hmemh : ∀ a, a ∈ (h.Pop).2.buf → a ∈ h.buf := by
        intro a ha
        exact hpperm.mem_iff.mp (List.mem_cons_of_mem x ha)
      have hrootle : ∀ a, a ∈ h.buf → cmp x a ≤ 0 := by
        intro a ha
        obtain ⟨n, hn⟩ := List.mem_iff_getElem?.mp ha
        exact root_min cmp hsym htrans h.buf hh x (by rw [hbuf]; simp) n a hn
      refine ⟨?_, ih2, ih3, ?_, ?_, ?_⟩
      · refine List.Perm.trans ?_ hpperm
        exact ih1.cons x
      · have := hplen
        rw [hbuf]
        simp only [List.length_cons]
        omega
      · refine List.Pairwise.cons ?_ ih5
        intro b hb
        exact hrootle b (hmemh b (ih6 b hb))
      · intro a ha
        rcases List.mem_cons.mp ha with rfl | ha
        · rw [hbuf]
          exact List.mem_cons_self a rest
        · exact hmemh a (ih6 a ha)

theorem pushAll_spec (cmp : α → α → Int)
    (hsym : ∀ a b, cmp a b ≤ 0 ↔ 0 ≤ cmp b a)
    (htrans : ∀ a b c, cmp a b ≤ 0 → cmp b c ≤ 0 → cmp a c ≤ 0) :
    ∀ (xs : List α) (h : Heap α), h.compare = cmp → IsHeapBuf cmp h.buf →
      (h.pushAll xs).compare = cmp ∧ IsHeapBuf cmp (h.pushAll xs).buf ∧
      List.Perm (h.pushAll xs).buf (xs ++ h.buf) := by
  intro xs
  induction xs with
  | nil =>
    intro h hcmp hh
    exact ⟨hcmp, hh, List.Perm.refl _⟩
  | cons x xs ih =>
    intro h hcmp hh
    have hcons : h.pushAll (x :: xs) = (h.Push x).pushAll xs := rfl
    rw [hcons]
    have hpc : (h.Push x).compare = cmp := by rw [push_compare, hcmp]
    have hph : IsHeapBuf cmp (h.Push x).buf := push_isHeap cmp hsym htrans h hcmp hh x
    obtain ⟨ih1, ih2, ih3⟩ := ih (h.Push x) hpc hph
    refine ⟨ih1, ih2, ?_⟩
    refine ih3.trans ?_
    refine ((push_perm h x).append_left xs).trans ?_
    exact List.perm_middle

end Heap

/-! ### Claim theorems -/

open Deque in
/-- C1: for every well-formed deque and every `n` with `cap - len < n` before the
call, `Grow n` leaves `cap - len ≥ n` and the logical contents (the sequence
`At 0, …, At (len-1)`, i.e. `toList`) unchanged, across all three relocation
cases A/B/C (the proof splits on exactly those cases). -/
theorem grow_preserves_contents (g : Nat → Nat → Nat) (hg : GrowOK g) (d : α)
    (q : Deque α) (hwf : q.WF) (n : Nat) (hn : q.cap - q.len < n) :
    n ≤ (q.Grow g d n).cap - (q.Grow g d n).Len ∧ (q.Grow g d n).toList = q.toList :=
  ⟨(grow_spec g hg d q hwf n).2.2.1, (grow_spec g hg d q hwf n).2.2.2⟩

/-- Witness for C1: a wrapped deque (head 2, capacity 3, full) grown by 2. -/
theorem grow_preserves_contents_witness :
    GrowOK minGrow ∧ (⟨2, [10, 20, 30], 3⟩ : Deque Nat).WF ∧
    Deque.cap (⟨2, [10, 20, 30], 3⟩ : Deque Nat) -
      Deque.Len (⟨2, [10, 20, 30], 3⟩ : Deque Nat) < 2 ∧
    (2 ≤ (Deque.Grow minGrow 0 (⟨2, [10, 20, 30], 3⟩ : Deque Nat) 2).cap -
        (Deque.Grow minGrow 0 (⟨2, [10, 20, 30], 3⟩ : Deque Nat) 2).Len ∧
      (Deque.Grow minGrow 0 (⟨2, [10, 20, 30], 3⟩ : Deque Nat) 2).toList =
        Deque.toList (⟨2, [10, 20, 30], 3⟩ : Deque Nat)) :=
  ⟨fun c k hk => Nat.le_refl (c + k), by decide, by decide,
    grow_preserves_contents minGrow (fun c k hk => Nat.le_refl (c + k)) 0
      (⟨2, [10, 20, 30], 3⟩ : Deque Nat) (by decide) 2 (by decide)⟩

/-- C2 counterexample: a full wrapped deque of capacity 8 with head 3
(`headLen = 5`, `tailLen = 3`) grown by 1 with the minimal `append` growth:
case B is unavailable (extension 1 < tailLen 3), so case C moves the *larger*
head segment: 5 elements, which is neither `min 5 3` nor `≤ len/2 = 4`.
Contents are still preserved. -/
theorem growMoved_min_counterexample :
    (⟨3, [0, 1, 2, 3, 4, 5, 6, 7], 8⟩ : Deque Nat).WF ∧
    ¬ (⟨3, [0, 1, 2, 3, 4, 5, 6, 7], 8⟩ : Deque Nat).head ≤
      (⟨3, [0, 1, 2, 3, 4, 5, 6, 7], 8⟩ : Deque Nat).cap -
        (⟨3, [0, 1, 2, 3, 4, 5, 6, 7], 8⟩ : Deque Nat).len ∧
    Deque.growMoved minGrow (⟨3, [0, 1, 2, 3, 4, 5, 6, 7], 8⟩ : Deque Nat) 1 = 5 ∧
    Nat.min 5 3 = 3 ∧ ¬ (5 : Nat) = 3 ∧ ¬ (5 : Nat) ≤ 8 / 2 ∧
    (Deque.Grow minGrow 0 (⟨3, [0, 1, 2, 3, 4, 5, 6, 7], 8⟩ : Deque Nat) 1).toList =
      Deque.toList (⟨3, [0, 1, 2, 3, 4, 5, 6, 7], 8⟩ : Deque Nat) := by
  refine ⟨by decide, by decide, by decide, by decide, by decide, by decide, by decide⟩

open Deque in
/-- C2 amended: on a reallocating `Grow`, the number of relocated elements is 0
when the occupied region does not wrap; when it wraps it is
`min headLen tailLen ≤ len/2` provided case B is taken (`headLen > tailLen` and
the realized capacity extension is at least `tailLen`), and otherwise it is the
full head segment `headLen` (which can exceed both `min` and `len/2`). -/
theorem growMoved_spec (g : Nat → Nat → Nat) (q : Deque α) (n : Nat)
    (hn : q.cap - q.len < n) :
    (q.head ≤ q.cap - q.len → q.growMoved g n = 0) ∧
    (¬ q.head ≤ q.cap - q.len →
      q.cap - q.head > q.len - (q.cap - q.head) ∧
        q.len - (q.cap - q.head) ≤ g q.cap (n - (q.cap - q.len)) - q.cap →
      q.growMoved g n = Nat.min (q.cap - q.head) (q.len - (q.cap - q.head)) ∧
        q.growMoved g n ≤ q.len / 2) ∧
    (¬ q.head ≤ q.cap - q.len →
      ¬ (q.cap - q.head > q.len - (q.cap - q.head) ∧
        q.len - (q.cap - q.head) ≤ g q.cap (n - (q.cap - q.len)) - q.cap) →
      q.growMoved g n = q.cap - q.head) := by
  refine ⟨?_, ?_, ?_⟩
  · intro hA
    simp only [growMoved]
    rw [if_neg (by omega), if_pos hA]
  · intro hA hB
    simp only [growMoved]
    rw [if_neg (by omega), if_neg hA, if_pos hB]
    exact ⟨(Nat.min_eq_right (by omega)).symm, by omega⟩
  · intro hA hB
    simp only [growMoved]
    rw [if_neg (by omega), if_neg hA, if_neg hB]

/-- Witness for the amended C2 (case B input: head 2, capacity 3, full, grow 2:
`headLen = 1`, `tailLen = 2`, case C moves `headLen = 1`). -/
theorem growMoved_spec_witness :
    Deque.cap (⟨2, [10, 20, 30], 3⟩ : Deque Nat) -
      (⟨2, [10, 20, 30], 3⟩ : Deque Nat).len < 2 ∧
    ¬ (⟨2, [10, 20, 30], 3⟩ : Deque Nat).head ≤
      Deque.cap (⟨2, [10, 20, 30], 3⟩ : Deque Nat) -
        (⟨2, [10, 20, 30], 3⟩ : Deque Nat).len ∧
    Deque.growMoved minGrow (⟨2, [10, 20, 30], 3⟩ : Deque Nat) 2 = 1 :=
  ⟨by decide, by decide, by
    have h := growMoved_spec minGrow (⟨2, [10, 20, 30], 3⟩ : Deque Nat) 2 (by decide)
    rw [h.2.2 (by decide) (by decide)]
    decide⟩

open Deque in
/-- C9: when the free capacity already covers `n` (`n ≤ cap - len`), `Grow` is a
complete no-op: the state (capacity, head, length, contents) is unchanged. -/
theorem grow_noop (g : Nat → Nat → Nat) (d : α) (q : Deque α) (n : Nat)
    (h : n ≤ q.cap - q.len) : q.Grow g d n = q := by
  unfold Deque.Grow
  rw [if_pos h]

/-- Witness for C9: the spec's concrete scenario. `From [1,2,3]` (capacity 3),
pop front twice, push 4,5 to the front: the inner `Grow 2` is a no-op, capacity
stays 3 and the contents become `[4, 5, 3]` through a wrapped front write. -/
theorem grow_noop_witness :
    (2 ≤ Deque.cap (⟨2, [1, 2, 3], 1⟩ : Deque Nat) -
        (⟨2, [1, 2, 3], 1⟩ : Deque Nat).len ∧
      Deque.Grow minGrow 0 (⟨2, [1, 2, 3], 1⟩ : Deque Nat) 2 =
        (⟨2, [1, 2, 3], 1⟩ : Deque Nat)) ∧
    (Deque.PopFront (Deque.From [1, 2, 3])).2 = (⟨1, [1, 2, 3], 2⟩ : Deque Nat) ∧
    (Deque.PopFront (⟨1, [1, 2, 3], 2⟩ : Deque Nat)).2 = (⟨2, [1, 2, 3], 1⟩ : Deque Nat) ∧
    Deque.cap (Deque.PushFront minGrow 0 (⟨2, [1, 2, 3], 1⟩ : Deque Nat) [4, 5]) = 3 ∧
    (Deque.PushFront minGrow 0 (⟨2, [1, 2, 3], 1⟩ : Deque Nat) [4, 5]).toList = [4, 5, 3] :=
  ⟨⟨by decide, grow_noop minGrow 0 (⟨2, [1, 2, 3], 1⟩ : Deque Nat) 2 (by decide)⟩,
    by decide, by decide, by decide, by decide⟩

/-- C3 counterexample: `Deque.PopAll` (final deque package) empties the deque
eagerly at call time; abandoning iteration after consuming one element does
NOT leave `3 - 1 = 2` elements behind — the deque already has length 0. -/
theorem popAll_eager_counterexample :
    (Deque.PopAll (⟨0, [1, 2, 3], 3⟩ : Deque Nat)).1 = [1, 2, 3] ∧
    (Deque.PopAll (⟨0, [1, 2, 3], 3⟩ : Deque Nat)).2.Len = 0 ∧
    (Deque.PopAll (⟨0, [1, 2, 3], 3⟩ : Deque Nat)).2.toList = [] ∧
    ¬ (Deque.PopAll (⟨0, [1, 2, 3], 3⟩ : Deque Nat)).2.Len = 3 - 1 := by
  refine ⟨by decide, by decide, by decide, by decide⟩

open Deque in
/-- C3 amended: the final `Deque.PopAll` empties the deque at call time and the
returned iterator yields the former contents front to back; consuming it fully
yields everything and the deque is empty, but abandoning early also leaves the
deque empty (not holding the remainder). The vecdeque `DQ.PopAll` variant does
pop lazily: consuming `k` steps yields the first `k` elements and leaves
exactly the remaining `len - k` elements, identically to `k` `PopFront`s. -/
theorem popAll_semantics (q : Deque α) (hwf : q.WF) (k : Nat) :
    (q.PopAll).1 = q.toList ∧ (q.PopAll).2.Len = 0 ∧ (q.PopAll).2.toList = [] ∧
    (DQ.PopAllTake q k).1 = q.toList.take k ∧
    (DQ.PopAllTake q k).2.toList = q.toList.drop k := by
  obtain ⟨h1, h2, h3, h4⟩ := popAll_eq q hwf
  obtain ⟨h5, h6, h7⟩ := DQ.popAllTake_eq q hwf k
  exact ⟨h1, h2, h4, h5, h6⟩

/-- Witness for C3: draining the three-element deque with one consumed step. -/
theorem popAll_semantics_witness :
    (⟨0, [1, 2, 3], 3⟩ : Deque Nat).WF ∧
    (Deque.PopAll (⟨0, [1, 2, 3], 3⟩ : Deque Nat)).1 =
      Deque.toList (⟨0, [1, 2, 3], 3⟩ : Deque Nat) ∧
    (DQ.PopAllTake (⟨0, [1, 2, 3], 3⟩ : Deque Nat) 1).1 =
      (Deque.toList (⟨0, [1, 2, 3], 3⟩ : Deque Nat)).take 1 ∧
    (DQ.PopAllTake (⟨0, [1, 2, 3], 3⟩ : Deque Nat) 1).2.toList =
      (Deque.toList (⟨0, [1, 2, 3], 3⟩ : Deque Nat)).drop 1 :=
  ⟨by decide,
    (popAll_semantics (⟨0, [1, 2, 3], 3⟩ : Deque Nat) (by decide) 1).1,
    (popAll_semantics (⟨0, [1, 2, 3], 3⟩ : Deque Nat) (by decide) 1).2.2.2.1,
    (popAll_semantics (⟨0, [1, 2, 3], 3⟩ : Deque Nat) (by decide) 1).2.2.2.2⟩

open Deque in
/-- C4: pushing `fs` to the front, then `bs` to the back, then draining with
`PopAll` yields exactly `fs ++ M ++ bs` where `M` was the logical content. -/
theorem push_drain_roundtrip (g : Nat → Nat → Nat) (hg : GrowOK g) (d : α)
    (q : Deque α) (hwf : q.WF) (fs bs : List α) :
    (Deque.PopAll (Deque.PushBack g d (Deque.PushFront g d q fs) bs)).1 =
      fs ++ q.toList ++ bs := by
  obtain ⟨hwf1, hlen1, htl1⟩ := pushFront_eq g hg d q hwf fs
  obtain ⟨hwf2, hlen2, htl2⟩ := pushBack_eq g hg d (Deque.PushFront g d q fs) hwf1 bs
  obtain ⟨hp1, hp2, hp3, hp4⟩ := popAll_eq (Deque.PushBack g d (Deque.PushFront g d q fs) bs) hwf2
  rw [hp1, htl2, htl1]

/-- Witness for C4: a wrapped two-element deque with two front and two back
pushes. -/
theorem push_drain_roundtrip_witness :
    (⟨2, [30, 0, 20], 2⟩ : Deque Nat).WF ∧
    (Deque.PopAll (Deque.PushBack minGrow 0
        (Deque.PushFront minGrow 0 (⟨2, [30, 0, 20], 2⟩ : Deque Nat) [1, 2]) [8, 9])).1 =
      [1, 2] ++ Deque.toList (⟨2, [30, 0, 20], 2⟩ : Deque Nat) ++ [8, 9] :=
  ⟨by decide,
    push_drain_roundtrip minGrow (fun c k hk => Nat.le_refl (c + k)) 0
      (⟨2, [30, 0, 20], 2⟩ : Deque Nat) (by decide) [1, 2] [8, 9]⟩

/-- C5 counterexample: the unchecked `vecdeque.DQ.Get` does NOT halt on an
out-of-range index: on a deque of length 1 (capacity 2), `Get 1` returns the
stale buffer value `20` instead of panicking. -/
theorem get_unchecked_counterexample :
    (⟨0, [10, 20], 1⟩ : Deque Nat).WF ∧
    ((⟨0, [10, 20], 1⟩ : Deque Nat).len : Int) ≤ 1 ∧
    DQ.Get (⟨0, [10, 20], 1⟩ : Deque Nat) 1 = some 20 := by
  refine ⟨by decide, by decide, by decide⟩

open Deque in
/-- C5 amended: the final `Deque.At` panics (`none`) exactly when `i < 0` or
`i ≥ len` and returns the element at logical index `i` otherwise; the vecdeque
`DQ.Get` is unchecked — it returns the correct element for in-range `i`, but an
out-of-range `i` may return a stale in-buffer value without halting. -/
theorem at_checked_get_unchecked (q : Deque α) (hwf : q.WF) (i : Int) :
    ((i < 0 ∨ (q.len : Int) ≤ i) → q.At i = none) ∧
    (0 ≤ i → i < (q.len : Int) → q.At i = q.toList[i.toNat]?) ∧
    (0 ≤ i → i < (q.len : Int) → DQ.Get q i = q.toList[i.toNat]?) := by
  obtain ⟨hlc, hh⟩ := id hwf
  simp only [cap] at hlc hh
  refine ⟨?_, ?_, ?_⟩
  · intro h
    have hnot : ¬ (0 ≤ i ∧ i < (q.len : Int)) := by
      rintro ⟨ha, hb⟩
      rcases h with h | h <;> omega
    unfold Deque.At
    rw [if_neg hnot]
  · intro h0 h1
    have hiN : i.toNat < q.len := by omega
    rw [toList_getElem? q hwf i.toNat hiN]
    unfold Deque.At
    rw [if_pos ⟨h0, h1⟩]
    rfl
  · intro h0 h1
    have hiN : i.toNat < q.len := by omega
    rw [toList_getElem? q hwf i.toNat hiN]
    show DQ.Get q i = q.atIdx i.toNat
    unfold DQ.Get atIdx toPhysicalIdx wrapAdd
    simp only [cap]
    rcases le_or_lt ((q.buf.length : Int)) ((q.head : Int) + i) with hc | hc
    · have h2 : q.buf.length ≤ q.head + i.toNat := by omega
      have h3 : (0 : Int) ≤ (q.head : Int) + i - (q.buf.length : Int) := by omega
      rw [if_pos hc, if_pos h2, if_pos h3]
      congr 1
      omega
    · have h2 : ¬ q.buf.length ≤ q.head + i.toNat := by omega
      have h2i : ¬ ((q.buf.length : Int) ≤ (q.head : Int) + i) := by omega
      have h3 : (0 : Int) ≤ (q.head : Int) + i := by omega
      rw [if_neg h2i, if_neg h2, if_pos h3]
      congr 1
      omega

/-- Witness for the amended C5 on a wrapped deque of length 2. -/
theorem at_checked_get_unchecked_witness :
    (⟨1, [10, 20], 2⟩ : Deque Nat).WF ∧
    Deque.At (⟨1, [10, 20], 2⟩ : Deque Nat) 2 = none ∧
    Deque.At (⟨1, [10, 20], 2⟩ : Deque Nat) 1 =
      (Deque.toList (⟨1, [10, 20], 2⟩ : Deque Nat))[(1 : Int).toNat]? ∧
    DQ.Get (⟨1, [10, 20], 2⟩ : Deque Nat) 1 =
      (Deque.toList (⟨1, [10, 20], 2⟩ : Deque Nat))[(1 : Int).toNat]? :=
  ⟨by decide,
    (at_checked_get_unchecked (⟨1, [10, 20], 2⟩ : Deque Nat) (by decide) 2).1
      (Or.inr (by decide)),
    (at_checked_get_unchecked (⟨1, [10, 20], 2⟩ : Deque Nat) (by decide) 1).2.1
      (by decide) (by decide),
    (at_checked_get_unchecked (⟨1, [10, 20], 2⟩ : Deque Nat) (by decide) 1).2.2
      (by decide) (by decide)⟩

/-- C6: on an empty deque, `PopFront` and `PopBack` report no value (`ok =
false`) without panicking and leave the deque unchanged (same head, buffer,
length, hence same capacity and contents); on an empty heap, `Pop` reports no
value and leaves the heap unchanged, a repeated `Pop` again reports no value
and keeps the original state, and a subsequent `Push` behaves exactly as on
the original heap. -/
theorem empty_pops (q : Deque α) (hq : q.len = 0) (h : Heap α) (hh : h.buf = [])
    (x : α) :
    q.PopFront = (none, q) ∧ q.PopBack = (none, q) ∧
    h.Pop = (none, h) ∧ (h.Pop).2.Pop = (none, h) ∧ ((h.Pop).2).Push x = h.Push x := by
  have hp : h.Pop = (none, h) := Heap.pop_empty h hh
  refine ⟨?_, ?_, hp, ?_, ?_⟩
  · unfold Deque.PopFront
    rw [if_pos hq]
  · unfold Deque.PopBack
    rw [if_pos hq]
  · rw [hp]
    exact hp
  · rw [hp]

/-- Witness for C6 on an empty-but-allocated deque and the empty heap. -/
theorem empty_pops_witness :
    (⟨0, [5], 0⟩ : Deque Nat).len = 0 ∧ (Heap.New natCmp).buf = [] ∧
    Deque.PopFront (⟨0, [5], 0⟩ : Deque Nat) = (none, (⟨0, [5], 0⟩ : Deque Nat)) ∧
    Deque.PopBack (⟨0, [5], 0⟩ : Deque Nat) = (none, (⟨0, [5], 0⟩ : Deque Nat)) ∧
    ((Heap.New natCmp).Pop.2).Push 7 = (Heap.New natCmp).Push 7 := by
  have h := empty_pops (⟨0, [5], 0⟩ : Deque Nat) rfl (Heap.New natCmp) rfl 7
  exact ⟨rfl, rfl, h.1, h.2.1, h.2.2.2.2⟩

/-- C7: pushing any sequence onto the empty heap under a total comparator and
then popping `k ≤ n` times yields values in non-decreasing comparator order,
all drawn from the pushed sequence, leaves `Len = n - k`, and popping all `n`
yields exactly the pushed multiset sorted. -/
theorem heap_push_pop_sorted (cmp : α → α → Int) (hc : Heap.IsTotalCmp cmp)
    (xs : List α) (k : Nat) (hk : k ≤ xs.length) :
    List.Pairwise (fun a b => cmp a b ≤ 0) (((Heap.New cmp).pushAll xs).popSeq k).1 ∧
    (∀ a, a ∈ (((Heap.New cmp).pushAll xs).popSeq k).1 → a ∈ xs) ∧
    Heap.Len ((((Heap.New cmp).pushAll xs).popSeq k).2) = xs.length - k ∧
    List.Perm ((((Heap.New cmp).pushAll xs).popSeq xs.length).1) xs := by
  obtain ⟨hsym, htrans⟩ := hc
  obtain ⟨hcmp, hheap, hperm⟩ :=
    Heap.pushAll_spec cmp hsym htrans xs (Heap.New cmp) rfl (Heap.isHeapBuf_nil cmp)
  have hperm2 : List.Perm ((Heap.New cmp).pushAll xs).buf xs := by
    simpa [Heap.New] using hperm
  have hlen : ((Heap.New cmp).pushAll xs).buf.length = xs.length := hperm2.length_eq
  obtain ⟨hp1, hp2, hp3, hp4, hp5, hp6⟩ :=
    Heap.popSeq_spec cmp hsym htrans k ((Heap.New cmp).pushAll xs) hcmp hheap
  obtain ⟨hq1, hq2, hq3, hq4, hq5, hq6⟩ :=
    Heap.popSeq_spec cmp hsym htrans xs.length ((Heap.New cmp).pushAll xs) hcmp hheap
  refine ⟨hp5, ?_, ?_, ?_⟩
  · intro a ha
    exact hperm2.mem_iff.mp (hp6 a ha)
  · show (((Heap.New cmp).pushAll xs).popSeq k).2.buf.length = xs.length - k
    rw [hp4, hlen]
  · have hq4a : (((Heap.New cmp).pushAll xs).popSeq xs.length).2.buf.length = 0 := by
      rw [hq4, hlen]
      omega
    have hnil : (((Heap.New cmp).pushAll xs).popSeq xs.length).2.buf = [] :=
      List.length_eq_zero.mp hq4a
    rw [hnil, List.append_nil] at hq1
    exact hq1.trans hperm2

/-- Witness for C7: pushing `[3, 1, 2]` and popping twice. -/
theorem heap_push_pop_sorted_witness :
    Heap.IsTotalCmp natCmp ∧ (2 : Nat) ≤ [3, 1, 2].length ∧
    List.Pairwise (fun a b => natCmp a b ≤ 0)
      (((Heap.New natCmp).pushAll [3, 1, 2]).popSeq 2).1 ∧
    Heap.Len ((((Heap.New natCmp).pushAll [3, 1, 2]).popSeq 2).2) = [3, 1, 2].length - 2 := by
  have hc : Heap.IsTotalCmp natCmp :=
    ⟨fun a b => by unfold natCmp; omega,
      fun a b c hab hbc => by unfold natCmp at hab hbc ⊢; omega⟩
  have h := heap_push_pop_sorted natCmp hc [3, 1, 2] 2 (by decide)
  exact ⟨hc, by decide, h.1, h.2.2.1⟩

/-- Helper for C8: every heap state reachable by `Push`/`Pop` from the empty
heap keeps its comparator and satisfies the min-heap buffer invariant. -/
theorem reachable_spec (cmp : α → α → Int)
    (hsym : ∀ a b, cmp a b ≤ 0 ↔ 0 ≤ cmp b a)
    (htrans : ∀ a b c, cmp a b ≤ 0 → cmp b c ≤ 0 → cmp a c ≤ 0) :
    ∀ h : Heap α, Heap.Reachable cmp h → h.compare = cmp ∧ Heap.IsHeapBuf cmp h.buf := by
  intro h hr
  induction hr with
  | empty => exact ⟨rfl, Heap.isHeapBuf_nil cmp⟩
  | push h0 x hr0 ih =>
    exact ⟨(Heap.push_compare h0 x).trans ih.1,
      Heap.push_isHeap cmp hsym htrans h0 ih.1 ih.2 x⟩
  | pop h0 hr0 ih =>
    cases hbuf : h0.buf with
    | nil =>
      rw [Heap.pop_empty h0 hbuf]
      exact ih
    | cons x rest =>
      obtain ⟨p1, p2, p3, p4, p5⟩ := Heap.pop_spec cmp hsym htrans h0 ih.1 ih.2 x rest hbuf
      exact ⟨p2, p4⟩

/-- C8: in every heap state reachable from the empty heap by any sequence of
`Push` and `Pop` under a total comparator, each non-root buffer entry compares
`≥ 0` against its parent at `(k - 1) / 2`: sift-up and sift-down preserve the
min-heap invariant. -/
theorem reachable_min_heap (cmp : α → α → Int) (hc : Heap.IsTotalCmp cmp)
    (h : Heap α) (hr : Heap.Reachable cmp h) (k : Nat) (a b : α)
    (hk : 0 < k) (hka : h.buf[k]? = some a) (hpb : h.buf[(k - 1) / 2]? = some b) :
    0 ≤ cmp a b := by
  obtain ⟨hsym, htrans⟩ := hc
  exact (reachable_spec cmp hsym htrans h hr).2 k a b hk hka hpb

/-- Witness for C8: the heap built by pushing `1` then `3` onto the empty heap. -/
theorem reachable_min_heap_witness :
    Heap.IsTotalCmp natCmp ∧
    Heap.Reachable natCmp (((Heap.New natCmp).Push 1).Push 3) ∧
    0 < 1 ∧
    (((Heap.New natCmp).Push 1).Push 3).buf[1]? = some 3 ∧
    (((Heap.New natCmp).Push 1).Push 3).buf[(1 - 1) / 2]? = some 1 ∧
    0 ≤ natCmp 3 1 := by
  have hc : Heap.IsTotalCmp natCmp :=
    ⟨fun a b => by unfold natCmp; omega,
      fun a b c hab hbc => by unfold natCmp at hab hbc ⊢; omega⟩
  have hH1 : (Heap.New natCmp).Push 1 = ⟨[1], natCmp⟩ := by
    rw [Heap.push_eq, Heap.upAux_eq_root _ _ _ _ (by decide)]
    rfl
  have hH2 : ((Heap.New natCmp).Push 1).Push 3 = ⟨[1, 3], natCmp⟩ := by
    rw [hH1, Heap.push_eq, Heap.upAux_eq_some _ _ _ _ 1 (by decide) (by rfl),
      if_pos (by decide)]
    rfl
  have hr : Heap.Reachable natCmp (((Heap.New natCmp).Push 1).Push 3) :=
    Heap.Reachable.push _ 3 (Heap.Reachable.push _ 1 Heap.Reachable.empty)
  have hka : (((Heap.New natCmp).Push 1).Push 3).buf[1]? = some 3 := by
    rw [hH2]
    rfl
  have hpb : (((Heap.New natCmp).Push 1).Push 3).buf[(1 - 1) / 2]? = some 1 := by
    rw [hH2]
    rfl
  exact ⟨hc, hr, Nat.one_pos, hka, hpb,
    reachable_min_heap natCmp hc _ hr 1 3 1 Nat.one_pos hka hpb⟩

open Deque in
/-- C10: `vecdeque.DQ` and the final `Deque` agree operation by operation —
`Grow`, `PushBack`, `PushFront`, `PopFront` and `PopBack` are extensionally
equal on every state — and observational equivalence holds across differing
growth strategies `g1`, `g2`: from two well-formed states with equal logical
contents, each operation yields the same popped value and states with equal
logical contents. -/
theorem dq_deque_equiv (g1 g2 : Nat → Nat → Nat) (hg1 : GrowOK g1) (hg2 : GrowOK g2)
    (d : α) (q1 q2 : Deque α) (h1 : q1.WF) (h2 : q2.WF)
    (he : q1.toList = q2.toList) (vs : List α) (n : Nat) :
    DQ.Grow g1 d q1 n = Deque.Grow g1 d q1 n ∧
    DQ.PushBack g1 d q1 vs = Deque.PushBack g1 d q1 vs ∧
    DQ.PushFront g1 d q1 vs = Deque.PushFront g1 d q1 vs ∧
    DQ.PopFront q1 = Deque.PopFront q1 ∧
    DQ.PopBack q1 = Deque.PopBack q1 ∧
    (DQ.PushBack g1 d q1 vs).toList = (Deque.PushBack g2 d q2 vs).toList ∧
    (DQ.PushFront g1 d q1 vs).toList = (Deque.PushFront g2 d q2 vs).toList ∧
    (DQ.PopFront q1).1 = (Deque.PopFront q2).1 ∧
    (DQ.PopFront q1).2.toList = (Deque.PopFront q2).2.toList ∧
    (DQ.PopBack q1).1 = (Deque.PopBack q2).1 ∧
    (DQ.PopBack q1).2.toList = (Deque.PopBack q2).2.toList := by
  have hlen : q1.len = q2.len := by
    rw [← toList_length q1 h1, ← toList_length q2 h2, he]
  obtain ⟨hbwf1, hblen1, hbtl1⟩ := pushBack_eq g1 hg1 d q1 h1 vs
  obtain ⟨hbwf2, hblen2, hbtl2⟩ := pushBack_eq g2 hg2 d q2 h2 vs
  obtain ⟨hfwf1, hflen1, hftl1⟩ := pushFront_eq g1 hg1 d q1 h1 vs
  obtain ⟨hfwf2, hflen2, hftl2⟩ := pushFront_eq g2 hg2 d q2 h2 vs
  obtain ⟨hpf1a, hpf1b, hpf1c, hpf1d, hpf1e⟩ := popFront_eq q1 h1
  obtain ⟨hpf2a, hpf2b, hpf2c, hpf2d, hpf2e⟩ := popFront_eq q2 h2
  obtain ⟨hpb1a, hpb1b, hpb1c, hpb1d, hpb1e⟩ := popBack_eq q1 h1
  obtain ⟨hpb2a, hpb2b, hpb2c, hpb2d, hpb2e⟩ := popBack_eq q2 h2
  refine ⟨DQ.grow_eq_deque g1 d q1 n, DQ.pushBack_eq_deque g1 d q1 vs,
    DQ.pushFront_eq_deque g1 d q1 vs, DQ.popFront_eq_deque q1, DQ.popBack_eq_deque q1,
    ?_, ?_, ?_, ?_, ?_, ?_⟩
  · rw [DQ.pushBack_eq_deque, hbtl1, hbtl2, he]
  · rw [DQ.pushFront_eq_deque, hftl1, hftl2, he]
  · rw [DQ.popFront_eq_deque, hpf1a, hpf2a, he]
  · rw [DQ.popFront_eq_deque, hpf1e, hpf2e, he]
  · rw [DQ.popBack_eq_deque, hpb1a, hpb2a, he, hlen]
  · rw [DQ.popBack_eq_deque, hpb1e, hpb2e, he, hlen]

/-- Witness for C10: a wrapped and an unwrapped deque with equal contents
`[10, 20, 30]` under two different growth strategies. -/
theorem dq_deque_equiv_witness :
    Deque.WF (⟨2, [20, 30, 10], 3⟩ : Deque Nat) ∧
    Deque.WF (⟨0, [10, 20, 30], 3⟩ : Deque Nat) ∧
    Deque.toList (⟨2, [20, 30, 10], 3⟩ : Deque Nat) =
      Deque.toList (⟨0, [10, 20, 30], 3⟩ : Deque Nat) ∧
    (DQ.PushBack minGrow 0 (⟨2, [20, 30, 10], 3⟩ : Deque Nat) [7]).toList =
      (Deque.PushBack (fun c k => c + k + 3) 0 (⟨0, [10, 20, 30], 3⟩ : Deque Nat) [7]).toList ∧
    (DQ.PopFront (⟨2, [20, 30, 10], 3⟩ : Deque Nat)).1 =
      (Deque.PopFront (⟨0, [10, 20, 30], 3⟩ : Deque Nat)).1 := by
  have h := dq_deque_equiv minGrow (fun c k => c + k + 3)
    (fun c k hk => Nat.le_refl (c + k))
    (fun c k hk => by show c + k ≤ c + k + 3; omega) 0
    (⟨2, [20, 30, 10], 3⟩ : Deque Nat) (⟨0, [10, 20, 30], 3⟩ : Deque Nat)
    (by decide) (by decide) (by decide) [7] 2
  exact ⟨by decide, by decide, by decide, h.2.2.2.2.2.1, h.2.2.2.2.2.2.2.1⟩
